import Mathlib

/-!
Verification of a UTXO block-ingestion / rollback engine.

The development shallowly embeds the TypeScript service layer
(`services/blockService.ts`, `services/outputService.ts`,
`services/stateService.ts`, `utils/hash.ts`, schema from
`database/migrations.ts`) of the indexer.  The Postgres store is modelled
as a `Store` record of row lists; SQL statements become pure list
operations.  One point of the embedding is load-bearing and mirrored
exactly from the source: inside `processBlock` the *reads*
(`getCurrentHeight(pool)`, `validateTransaction(pool, tx)` and hence
`getOutputValue(pool, …)`) go through the connection pool, i.e. a
connection different from the `client` that holds the open
`BEGIN … COMMIT` unit, so under read-committed isolation they observe
only the committed state from before the block; all *writes* go through
`client`.  Accordingly the embedded `processTx`/`processTxs` validate
against the fixed committed snapshot `s0` while the write set accumulates
in a `Work` value, and the `catch { ROLLBACK }` wrapper is the
`ingestVisible`/`rollbackVisible` function that discards the write set on
error.  The unique-key constraints declared in `migrations.ts`
(`blocks.id` primary key, `blocks.height` unique, `transactions.id`
primary key, `outputs (tx_id, output_index)` primary key) are modelled as
checks at the insertion points; their violation is the store-fault
category `uniqueViolation`.  The SHA-256 digest supplied by the `crypto`
library is an external collaborator and is abstracted as a parameter
`sha : String → String`; `calculateBlockHash` applies it to exactly the
concatenation the source builds.
-/

namespace Indexer

/-- Request-side declared output (interface `Output` in `types.ts`). -/
structure Output where
  address : String
  value : Int
deriving Repr, DecidableEq

/-- Request-side input reference (interface `Input` in `types.ts`). -/
structure Input where
  txId : String
  index : Nat
deriving Repr, DecidableEq

/-- Request-side transaction (interface `Transaction` in `types.ts`). -/
structure Transaction where
  id : String
  inputs : List Input
  outputs : List Output
deriving Repr, DecidableEq

/-- Request-side block (interface `Block` in `types.ts`). -/
structure Block where
  id : String
  height : Nat
  transactions : List Transaction
deriving Repr, DecidableEq

/-- Row of the `blocks` table. -/
structure BlockRow where
  id : String
  height : Nat
deriving Repr, DecidableEq

/-- Row of the `transactions` table. -/
structure TxRow where
  id : String
  block_id : String
  block_height : Nat
deriving Repr, DecidableEq

/-- Row of the `outputs` table. -/
structure OutputRow where
  tx_id : String
  output_index : Nat
  address : String
  value : Int
  spent : Bool
  spent_by_tx : Option String
deriving Repr, DecidableEq

/-- The relational store: the four record sets of the schema
(`blocks`, `transactions`, `outputs` and the single-row `state` table
holding `current_height`).  Lists keep insertion order. -/
structure Store where
  blocks : List BlockRow
  transactions : List TxRow
  outputs : List OutputRow
  current_height : Nat
deriving Repr, DecidableEq

/-- State of the database right after `createTables` in `migrations.ts`:
empty record sets, `current_height = 0`. -/
def initialStore : Store := ⟨[], [], [], 0⟩

/-- Error taxonomy of the engine.  The source throws `Error` values with
distinguishing messages; each throw site is mapped to one constructor,
carrying the data interpolated into the message.  `uniqueViolation` is
the store-fault raised by the database when a key constraint from
`migrations.ts` is violated. -/
inductive IngestError where
  | invalidHeight (expected got : Nat)
  | invalidHash (expected got : String)
  | outputNotFound (txId : String) (index : Nat)
  | valueMismatch (txId : String)
  | doubleSpend (txId : String) (index : Nat)
  | futureHeight (target current : Nat)
  | rollbackWindowExceeded (depth : Nat)
  | uniqueViolation
deriving Repr, DecidableEq

/-- Result type of `getOutputValue` (`{ address, value }` or `null`). -/
structure OutputValue where
  address : String
  value : Int
deriving Repr, DecidableEq

/-- `getOutputValue` from `outputService.ts`: first row of
`SELECT address, value FROM outputs WHERE tx_id = $1 AND output_index = $2`,
or `none`.  The `spent` flag is not part of the filter. -/
def getOutputValue (s : Store) (txId : String) (index : Nat) : Option OutputValue :=
  match s.outputs.find? (fun o => o.tx_id == txId && o.output_index == index) with
  | none => none
  | some o => some ⟨o.address, o.value⟩

/-- `getBalance` from `outputService.ts`:
`SELECT COALESCE(SUM(value), 0) FROM outputs WHERE address = $1 AND spent = FALSE`,
modelled as a row scan accumulating the sum. -/
def getBalance (s : Store) (address : String) : Int :=
  s.outputs.foldl (fun acc o => if o.address == address && o.spent == false then acc + o.value else acc) 0

/-- `getCurrentHeight` from `stateService.ts`: the `current_height` column
of the single `state` row (`0` before any block, as seeded by the
migration). -/
def getCurrentHeight (s : Store) : Nat :=
  s.current_height

/-- `calculateBlockHash` from `utils/hash.ts`: the digest of
`height.toString() + txIds.join('')`.  The digest function itself
(`crypto.createHash('sha256') … digest('hex')`) is the parameter `sha`. -/
def calculateBlockHash (sha : String → String) (height : Nat) (txIds : List String) : String :=
  sha (toString height ++ String.join txIds)

/-- `calculateInputSum` from `blockService.ts`: walk the inputs in order,
resolve each through `getOutputValue` against the committed state, throw
`Output not found` at the first unresolved reference, otherwise sum the
values. -/
def calculateInputSum (s : Store) : List Input → Except IngestError Int
  | [] => .ok 0
  | input :: rest =>
    match getOutputValue s input.txId input.index with
    | none => .error (.outputNotFound input.txId input.index)
    | some ov =>
      match calculateInputSum s rest with
      | .error e => .error e
      | .ok r => .ok (ov.value + r)

/-- `validateTransaction` from `blockService.ts`: compute the input sum
when there is at least one input, the declared output sum, and throw
`input sum != output sum` only for transactions that have inputs. -/
def validateTransaction (s : Store) (tx : Transaction) : Except IngestError Unit :=
  match (if 0 < tx.inputs.length then calculateInputSum s tx.inputs else .ok 0) with
  | .error e => .error e
  | .ok inputSum =>
    let outputSum := tx.outputs.foldl (fun acc o => acc + o.value) 0
    if 0 < tx.inputs.length ∧ inputSum ≠ outputSum then .error (.valueMismatch tx.id)
    else .ok ()

/-- In-flight write set of one ingestion: the `transactions` and
`outputs` tables as seen by the `client` connection inside the open
atomic unit. -/
structure Work where
  transactions : List TxRow
  outputs : List OutputRow
deriving Repr, DecidableEq

/-- Effect of
`UPDATE outputs SET spent = TRUE, spent_by_tx = $1 WHERE tx_id = $2 AND output_index = $3 AND spent = FALSE`
on one row. -/
def markRow (spender : String) (input : Input) (o : OutputRow) : OutputRow :=
  if o.tx_id == input.txId && o.output_index == input.index && o.spent == false
  then { o with spent := true, spent_by_tx := some spender }
  else o

/-- `rowCount` of the conditional spend-marking update: how many rows
match its `WHERE` clause. -/
def updateSpendCount (outs : List OutputRow) (input : Input) : Nat :=
  (outs.filter (fun o => o.tx_id == input.txId && o.output_index == input.index && o.spent == false)).length

/-- The spend-marking loop of `processBlock`: for each input run the
conditional update, and throw `Output already spent or not found` when it
reports `rowCount === 0`. -/
def markInputs (spender : String) (outs : List OutputRow) : List Input → Except IngestError (List OutputRow)
  | [] => .ok outs
  | input :: rest =>
    let cnt := updateSpendCount outs input
    let outs' := outs.map (markRow spender input)
    if cnt = 0 then .error (.doubleSpend input.txId input.index)
    else markInputs spender outs' rest

/-- The output-creation loop of `processBlock`:
`INSERT INTO outputs (tx_id, output_index, address, value, spent) VALUES ($1, i, $3, $4, FALSE)`
for each declared output, with the `(tx_id, output_index)` primary key
enforced at each insertion. -/
def insertOutputs (txId : String) (outs : List OutputRow) : List Output → Nat → Except IngestError (List OutputRow)
  | [], _ => .ok outs
  | o :: rest, i =>
    if outs.any (fun r => r.tx_id == txId && r.output_index == i) then .error .uniqueViolation
    else insertOutputs txId (outs ++ [⟨txId, i, o.address, o.value, false, none⟩]) rest (i + 1)

/-- One iteration of the transaction loop of `processBlock`: validate
against the committed snapshot `s0` (the pool connection), insert the
transaction row (primary key on `id`), mark the inputs spent, insert the
declared outputs. -/
def processTx (s0 : Store) (blockId : String) (blockHeight : Nat) (w : Work) (tx : Transaction) : Except IngestError Work :=
  match validateTransaction s0 tx with
  | .error e => .error e
  | .ok _ =>
    if w.transactions.any (fun t => t.id == tx.id) then .error .uniqueViolation
    else
      let txRows := w.transactions ++ [⟨tx.id, blockId, blockHeight⟩]
      match markInputs tx.id w.outputs tx.inputs with
      | .error e => .error e
      | .ok outs₁ =>
        match insertOutputs tx.id outs₁ tx.outputs 0 with
        | .error e => .error e
        | .ok outs₂ => .ok ⟨txRows, outs₂⟩

/-- The transaction loop of `processBlock` over the block's transactions
in declared order. -/
def processTxs (s0 : Store) (blockId : String) (blockHeight : Nat) (w : Work) : List Transaction → Except IngestError Work
  | [] => .ok w
  | tx :: rest =>
    match processTx s0 blockId blockHeight w tx with
    | .error e => .error e
    | .ok w' => processTxs s0 blockId blockHeight w' rest

/-- `processBlock` from `blockService.ts`, the body of the atomic unit:
height check against `getCurrentHeight(pool)`, hash check, block-row
insertion (primary key on `id`, unique constraint on `height`), the
transaction loop, and the height advance.  An `.error` outcome means the
unit threw and was rolled back; `.ok` carries the state the `COMMIT`
publishes. -/
def ingestBlock (sha : String → String) (s : Store) (b : Block) : Except IngestError Store :=
  let currentHeight := getCurrentHeight s
  if b.height ≠ currentHeight + 1 then .error (.invalidHeight (currentHeight + 1) b.height)
  else
    let expectedHash := calculateBlockHash sha b.height (b.transactions.map (·.id))
    if b.id ≠ expectedHash then .error (.invalidHash expectedHash b.id)
    else if s.blocks.any (fun r => r.id == b.id || r.height == b.height) then .error .uniqueViolation
    else
      match processTxs s b.id b.height ⟨s.transactions, s.outputs⟩ b.transactions with
      | .error e => .error e
      | .ok w => .ok ⟨s.blocks ++ [⟨b.id, b.height⟩], w.transactions, w.outputs, b.height⟩

/-- The store visible after `processBlock` returns or throws: `COMMIT`
publishes the new state, the `catch { ROLLBACK }` discards the write set
and leaves the committed state untouched. -/
def ingestVisible (sha : String → String) (s : Store) (b : Block) : Store :=
  match ingestBlock sha s b with
  | .ok s' => s'
  | .error _ => s

/-- Effect of
`UPDATE outputs SET spent = FALSE, spent_by_tx = NULL WHERE spent_by_tx = $1`
on one row. -/
def unspendByTx (tid : String) (o : OutputRow) : OutputRow :=
  if o.spent_by_tx == some tid then { o with spent := false, spent_by_tx := none }
  else o

/-- Per-transaction body of the rollback loop: un-spend every output the
transaction spent, then `DELETE FROM outputs WHERE tx_id = $1`. -/
def undoTx (outs : List OutputRow) (tid : String) : List OutputRow :=
  (outs.map (unspendByTx tid)).filter (fun o => !(o.tx_id == tid))

/-- Per-block body of the rollback loop: select the block's transactions
(`SELECT id FROM transactions WHERE block_height = $1`), undo each, then
delete the transaction rows of that height and the block row. -/
def undoBlock (s : Store) (blk : BlockRow) : Store :=
  let tids := (s.transactions.filter (fun t => t.block_height == blk.height)).map (·.id)
  { blocks := s.blocks.filter (fun r => !(r.id == blk.id)),
    transactions := s.transactions.filter (fun t => !(t.block_height == blk.height)),
    outputs := tids.foldl undoTx s.outputs,
    current_height := s.current_height }

/-- Insertion step of the model of `ORDER BY height DESC`. -/
def insertDesc (b : BlockRow) : List BlockRow → List BlockRow
  | [] => [b]
  | c :: cs => if c.height ≤ b.height then b :: c :: cs else c :: insertDesc b cs

/-- `SELECT … ORDER BY height DESC` modelled as an insertion sort by
descending height. -/
def sortByHeightDesc : List BlockRow → List BlockRow
  | [] => []
  | b :: bs => insertDesc b (sortByHeightDesc bs)

/-- `rollbackToHeight` from `blockService.ts`: the future-height and
2000-block-window guards, then the unwind loop over all blocks strictly
above the target in descending height order, then the height rewind.
As with ingestion, `.error` means the atomic unit was rolled back. -/
def rollbackToHeight (s : Store) (targetHeight : Nat) : Except IngestError Store :=
  let currentHeight := getCurrentHeight s
  if targetHeight > currentHeight then .error (.futureHeight targetHeight currentHeight)
  else if currentHeight - targetHeight > 2000 then .error (.rollbackWindowExceeded (currentHeight - targetHeight))
  else
    let toRemove := sortByHeightDesc (s.blocks.filter (fun r => targetHeight < r.height))
    let s' := toRemove.foldl undoBlock s
    .ok { s' with current_height := targetHeight }

/-- The store visible after `rollbackToHeight` returns or throws. -/
def rollbackVisible (s : Store) (targetHeight : Nat) : Store :=
  match rollbackToHeight s targetHeight with
  | .ok s' => s'
  | .error _ => s

/-- Successive ingestion of a list of blocks, stopping at the first
failure.  `Store`s reachable from `initialStore` through this function
are the reachable states of the engine. -/
def ingestChain (sha : String → String) : Store → List Block → Except IngestError Store
  | s, [] => .ok s
  | s, b :: rest =>
    match ingestBlock sha s b with
    | .error e => .error e
    | .ok s' => ingestChain sha s' rest

/-! ### Structural lemmas about one ingestion step -/

/-- Predicate describing a spend-marking pass for spender `tid`: each row
is either untouched or, when it was unspent, flipped to spent with the
spending reference set. -/
def MarkFun (tid : String) (m : OutputRow → OutputRow) : Prop :=
  ∀ o, m o = o ∨ (o.spent = false ∧ m o = { o with spent := true, spent_by_tx := some tid })

/-- Rows created by the output-creation loop for a transaction, starting
at a given index. -/
def outputRowsOf (txId : String) : List Output → Nat → List OutputRow
  | [], _ => []
  | o :: rest, i => ⟨txId, i, o.address, o.value, false, none⟩ :: outputRowsOf txId rest (i + 1)

theorem markInputs_map (spender : String) : ∀ (inputs : List Input) (outs outs' : List OutputRow),
    markInputs spender outs inputs = .ok outs' →
    ∃ m : OutputRow → OutputRow, outs' = outs.map m ∧ MarkFun spender m := by
  intro inputs
  induction inputs with
  | nil =>
    intro outs outs' h
    simp only [markInputs] at h
    cases h
    exact ⟨id, by simp, fun o => Or.inl rfl⟩
  | cons input rest ih =>
    intro outs outs' h
    simp only [markInputs] at h
    split at h
    · cases h
    · obtain ⟨m', hm', hMF'⟩ := ih (outs.map (markRow spender input)) outs' h
      refine ⟨m' ∘ markRow spender input, by simpa using hm', ?_⟩
      intro o
      by_cases hc : (o.tx_id == input.txId && o.output_index == input.index && o.spent == false) = true
      · have hmr : markRow spender input o = { o with spent := true, spent_by_tx := some spender } := by
          unfold markRow
          rw [if_pos hc]
        have hspent : o.spent = false := by
          simp only [Bool.and_eq_true, beq_iff_eq] at hc
          exact hc.2
        rcases hMF' { o with spent := true, spent_by_tx := some spender } with h1 | h2
        · refine Or.inr ⟨hspent, ?_⟩
          show m' (markRow spender input o) = _
          rw [hmr, h1]
        · exact absurd h2.1 (by simp)
      · have hmr : markRow spender input o = o := by
          unfold markRow
          rw [if_neg hc]
        rcases hMF' o with h1 | h2
        · refine Or.inl ?_
          show m' (markRow spender input o) = o
          rw [hmr, h1]
        · refine Or.inr ⟨h2.1, ?_⟩
          show m' (markRow spender input o) = _
          rw [hmr, h2.2]

theorem markInputs_error (spender : String) : ∀ (inputs : List Input) (outs : List OutputRow) (e : IngestError),
    markInputs spender outs inputs = .error e →
    ∃ t i, e = .doubleSpend t i := by
  intro inputs
  induction inputs with
  | nil => intro outs e h; simp [markInputs] at h
  | cons input rest ih =>
    intro outs e h
    simp only [markInputs] at h
    split at h
    · cases h; exact ⟨input.txId, input.index, rfl⟩
    · exact ih _ _ h

theorem insertOutputs_append (txId : String) : ∀ (l : List Output) (outs : List OutputRow) (i : Nat) (outs₂ : List OutputRow),
    insertOutputs txId outs l i = .ok outs₂ →
    outs₂ = outs ++ outputRowsOf txId l i := by
  intro l
  induction l with
  | nil => intro outs i outs₂ h; simp only [insertOutputs] at h; cases h; simp [outputRowsOf]
  | cons o rest ih =>
    intro outs i outs₂ h
    simp only [insertOutputs] at h
    split at h
    · cases h
    · have := ih (outs ++ [⟨txId, i, o.address, o.value, false, none⟩]) (i + 1) outs₂ h
      simp [this, outputRowsOf]

theorem insertOutputs_ok (txId : String) : ∀ (l : List Output) (outs : List OutputRow) (i : Nat),
    (∀ r ∈ outs, r.tx_id = txId → r.output_index < i) →
    insertOutputs txId outs l i = .ok (outs ++ outputRowsOf txId l i) := by
  intro l
  induction l with
  | nil => intro outs i _; simp [insertOutputs, outputRowsOf]
  | cons o rest ih =>
    intro outs i hlt
    have hany : (outs.any fun r => r.tx_id == txId && r.output_index == i) = false := by
      rw [List.any_eq_false]
      intro r hr
      simp only [Bool.and_eq_true, beq_iff_eq, not_and]
      intro h1 h2
      exact absurd h2 (Nat.ne_of_lt (hlt r hr h1))
    have hrec := ih (outs ++ [⟨txId, i, o.address, o.value, false, none⟩]) (i + 1) ?_
    · simp only [insertOutputs, hany, Bool.false_eq_true, if_false]
      rw [hrec]
      simp [outputRowsOf]
    · intro r hr htx
      rcases List.mem_append.1 hr with h | h
      · exact Nat.lt_succ_of_lt (hlt r h htx)
      · simp only [List.mem_singleton] at h
        subst h
        exact Nat.lt_succ_self i

theorem processTx_ok {s0 : Store} {bid : String} {bh : Nat} {w : Work} {tx : Transaction} {w' : Work}
    (hp : processTx s0 bid bh w tx = .ok w') :
    validateTransaction s0 tx = .ok () ∧
    (∀ t ∈ w.transactions, t.id ≠ tx.id) ∧
    w'.transactions = w.transactions ++ [⟨tx.id, bid, bh⟩] ∧
    ∃ m, MarkFun tx.id m ∧ w'.outputs = w.outputs.map m ++ outputRowsOf tx.id tx.outputs 0 := by
  simp only [processTx] at hp
  cases hv : validateTransaction s0 tx with
  | error e =>
    simp only [hv] at hp
    exact Except.noConfusion hp
  | ok u =>
    cases u
    simp only [hv] at hp
    split at hp
    · cases hp
    · rename_i hany
      cases hmk : markInputs tx.id w.outputs tx.inputs with
      | error e =>
        simp only [hmk] at hp
        exact Except.noConfusion hp
      | ok outs₁ =>
        simp only [hmk] at hp
        cases hins : insertOutputs tx.id outs₁ tx.outputs 0 with
        | error e =>
          simp only [hins] at hp
          exact Except.noConfusion hp
        | ok outs₂ =>
          simp only [hins, Except.ok.injEq] at hp
          subst hp
          obtain ⟨m, hm, hMF⟩ := markInputs_map tx.id tx.inputs w.outputs outs₁ hmk
          refine ⟨rfl, ?_, rfl, m, hMF, ?_⟩
          · intro t ht
            have : ¬ (t.id == tx.id) = true := by
              intro hbeq
              exact hany (List.any_eq_true.2 ⟨t, ht, hbeq⟩)
            simpa using this
          · have := insertOutputs_append tx.id tx.outputs outs₁ 0 outs₂ hins
            rw [this, hm]

theorem processTxs_txRows {s0 : Store} {bid : String} {bh : Nat} : ∀ {txs : List Transaction} {w w' : Work},
    processTxs s0 bid bh w txs = .ok w' →
    w'.transactions = w.transactions ++ txs.map (fun t => ⟨t.id, bid, bh⟩) := by
  intro txs
  induction txs with
  | nil => intro w w' h; simp only [processTxs] at h; cases h; simp
  | cons tx rest ih =>
    intro w w' h
    simp only [processTxs] at h
    cases hp : processTx s0 bid bh w tx with
    | error e => rw [hp] at h; cases h
    | ok w₁ =>
      rw [hp] at h
      have h1 := (processTx_ok hp).2.2.1
      have h2 := ih h
      rw [h2, h1]
      simp

theorem processTxs_validate {s0 : Store} {bid : String} {bh : Nat} : ∀ {txs : List Transaction} {w w' : Work},
    processTxs s0 bid bh w txs = .ok w' →
    ∀ tx ∈ txs, validateTransaction s0 tx = .ok () := by
  intro txs
  induction txs with
  | nil => intro w w' _ tx htx; cases htx
  | cons t rest ih =>
    intro w w' h tx htx
    simp only [processTxs] at h
    cases hp : processTx s0 bid bh w t with
    | error e => rw [hp] at h; cases h
    | ok w₁ =>
      rw [hp] at h
      rcases List.mem_cons.1 htx with rfl | hmem
      · exact (processTx_ok hp).1
      · exact ih h tx hmem


theorem processTxs_fresh {s0 : Store} {bid : String} {bh : Nat} : ∀ {txs : List Transaction} {w w' : Work},
    processTxs s0 bid bh w txs = .ok w' →
    ∀ tx ∈ txs, ∀ t ∈ w.transactions, t.id ≠ tx.id := by
  intro txs
  induction txs with
  | nil => intro w w' _ tx htx; cases htx
  | cons hd rest ih =>
    intro w w' h tx htx t ht
    simp only [processTxs] at h
    cases hp : processTx s0 bid bh w hd with
    | error e => rw [hp] at h; exact Except.noConfusion h
    | ok w₁ =>
      rw [hp] at h
      rcases List.mem_cons.1 htx with rfl | hmem
      · exact (processTx_ok hp).2.1 t ht
      · refine ih h tx hmem t ?_
        rw [(processTx_ok hp).2.2.1]
        exact List.mem_append_left _ ht

/-! ### Referential invariants of the working tables -/

/-- Invariants tying the `outputs` rows to the `transactions` rows: each
output row belongs to a stored transaction, each spending reference names
a stored transaction, and unspent rows carry no spending reference. -/
def WorkSC (w : Work) : Prop :=
  (∀ o ∈ w.outputs, ∃ t ∈ w.transactions, t.id = o.tx_id) ∧
  (∀ o ∈ w.outputs, ∀ tid, o.spent_by_tx = some tid → ∃ t ∈ w.transactions, t.id = tid) ∧
  (∀ o ∈ w.outputs, o.spent = false → o.spent_by_tx = none)

theorem outputRowsOf_mem {tid : String} : ∀ {l : List Output} {i : Nat} {o : OutputRow},
    o ∈ outputRowsOf tid l i →
    o.tx_id = tid ∧ o.spent = false ∧ o.spent_by_tx = none ∧ i ≤ o.output_index := by
  intro l
  induction l with
  | nil => intro i o ho; cases ho
  | cons x rest ih =>
    intro i o ho
    rcases List.mem_cons.1 ho with rfl | hmem
    · exact ⟨rfl, rfl, rfl, Nat.le_refl i⟩
    · obtain ⟨h1, h2, h3, h4⟩ := ih hmem
      exact ⟨h1, h2, h3, Nat.le_of_succ_le h4⟩

theorem processTx_SC {s0 : Store} {bid : String} {bh : Nat} {w : Work} {tx : Transaction} {w' : Work}
    (hp : processTx s0 bid bh w tx = .ok w') (hsc : WorkSC w) : WorkSC w' := by
  obtain ⟨-, hfresh, htx, m, hMF, houts⟩ := processTx_ok hp
  obtain ⟨sc1, sc2, sc3⟩ := hsc
  refine ⟨?_, ?_, ?_⟩
  · intro o ho
    rw [houts] at ho
    rcases List.mem_append.1 ho with hm | hm
    · obtain ⟨o₀, ho₀, rfl⟩ := List.mem_map.1 hm
      obtain ⟨t, ht, hid⟩ := sc1 o₀ ho₀
      rcases hMF o₀ with h1 | h2
      · rw [h1]
        exact ⟨t, by rw [htx]; exact List.mem_append_left _ ht, hid⟩
      · rw [h2.2]
        exact ⟨t, by rw [htx]; exact List.mem_append_left _ ht, hid⟩
    · obtain ⟨h1, -, -, -⟩ := outputRowsOf_mem hm
      refine ⟨⟨tx.id, bid, bh⟩, ?_, h1.symm⟩
      rw [htx]
      exact List.mem_append_right _ (List.mem_singleton.2 rfl)
  · intro o ho tid htid
    rw [houts] at ho
    rcases List.mem_append.1 ho with hm | hm
    · obtain ⟨o₀, ho₀, rfl⟩ := List.mem_map.1 hm
      rcases hMF o₀ with h1 | h2
      · rw [h1] at htid
        obtain ⟨t, ht, hid⟩ := sc2 o₀ ho₀ tid htid
        exact ⟨t, by rw [htx]; exact List.mem_append_left _ ht, hid⟩
      · rw [h2.2] at htid
        simp only [Option.some.injEq] at htid
        refine ⟨⟨tx.id, bid, bh⟩, ?_, htid⟩
        rw [htx]
        exact List.mem_append_right _ (List.mem_singleton.2 rfl)
    · obtain ⟨-, -, h3, -⟩ := outputRowsOf_mem hm
      rw [h3] at htid
      exact Option.noConfusion htid
  · intro o ho hsp
    rw [houts] at ho
    rcases List.mem_append.1 ho with hm | hm
    · obtain ⟨o₀, ho₀, rfl⟩ := List.mem_map.1 hm
      rcases hMF o₀ with h1 | h2
      · rw [h1] at hsp ⊢
        exact sc3 o₀ ho₀ hsp
      · rw [h2.2] at hsp
        exact absurd hsp (by simp)
    · exact (outputRowsOf_mem hm).2.2.1

theorem processTxs_SC {s0 : Store} {bid : String} {bh : Nat} : ∀ {txs : List Transaction} {w w' : Work},
    processTxs s0 bid bh w txs = .ok w' → WorkSC w → WorkSC w' := by
  intro txs
  induction txs with
  | nil => intro w w' h hsc; simp only [processTxs] at h; cases h; exact hsc
  | cons hd rest ih =>
    intro w w' h hsc
    simp only [processTxs] at h
    cases hp : processTx s0 bid bh w hd with
    | error e => rw [hp] at h; exact Except.noConfusion h
    | ok w₁ => rw [hp] at h; exact ih h (processTx_SC hp hsc)

/-! ### The rollback loop as a single pass over the outputs table -/

/-- Pointwise effect, on one output row, of undoing the set of
transactions `tids`: rows owned by an undone transaction disappear, rows
spent by an undone transaction are un-spent, other rows are untouched. -/
def undoF (tids : List String) (o : OutputRow) : Option OutputRow :=
  if o.tx_id ∈ tids then none
  else match o.spent_by_tx with
    | some tid => if tid ∈ tids then some { o with spent := false, spent_by_tx := none } else some o
    | none => some o

theorem filterMap_id_of {α : Type} (f : α → Option α) : ∀ (l : List α), (∀ a ∈ l, f a = some a) → l.filterMap f = l := by
  intro l
  induction l with
  | nil => intro _; rfl
  | cons x rest ih =>
    intro h
    rw [List.filterMap_cons, h x (List.mem_cons_self x rest), ih (fun a ha => h a (List.mem_cons_of_mem x ha))]

theorem undoF_nil (o : OutputRow) : undoF [] o = some o := by
  unfold undoF
  cases o.spent_by_tx <;> simp

theorem undoF_single (tid : String) (o : OutputRow) :
    undoF [tid] o = if o.tx_id = tid then none else some (unspendByTx tid o) := by
  unfold undoF unspendByTx
  by_cases hc : o.tx_id = tid
  · simp [hc]
  · cases hs : o.spent_by_tx with
    | none => simp [hc, hs]
    | some u =>
      by_cases hu : u = tid
      · simp [hc, hs, hu]
      · simp [hc, hs, hu]

theorem undoTx_eq_filterMap (outs : List OutputRow) (tid : String) :
    undoTx outs tid = outs.filterMap (undoF [tid]) := by
  unfold undoTx
  induction outs with
  | nil => rfl
  | cons o rest ih =>
    rw [List.map_cons, List.filter_cons, List.filterMap_cons, undoF_single]
    have hpres : (unspendByTx tid o).tx_id = o.tx_id := by
      unfold unspendByTx
      split <;> rfl
    by_cases hc : o.tx_id = tid
    · have : ((unspendByTx tid o).tx_id == tid) = true := by rw [hpres]; exact beq_iff_eq.2 hc
      simp only [this, Bool.not_true, Bool.false_eq_true, if_false, if_pos hc]
      exact ih
    · have : ((unspendByTx tid o).tx_id == tid) = false := by
        rw [hpres]
        exact beq_eq_false_iff_ne.2 hc
      simp only [this, Bool.not_false, if_true, if_neg hc]
      rw [ih]

theorem unspent_eta {o : OutputRow} (h1 : o.spent = false) (h2 : o.spent_by_tx = none) :
    ({ o with spent := false, spent_by_tx := none } : OutputRow) = o := by
  cases o
  simp only at h1 h2
  rw [h1, h2]

theorem undoF_cons_left (t : String) (ts : List String) (o : OutputRow) :
    undoF (t :: ts) o = (undoF [t] o).bind (undoF ts) := by
  rw [undoF_single]
  by_cases hc : o.tx_id = t
  · simp only [if_pos hc, Option.bind]
    unfold undoF
    rw [if_pos (by rw [hc]; exact List.mem_cons_self t ts)]
  · simp only [if_neg hc, Option.bind]
    unfold undoF unspendByTx
    cases hs : o.spent_by_tx with
    | none => simp [hs, hc]
    | some u =>
      by_cases hu : u = t
      · simp [hs, hc, hu]
      · by_cases hts : u ∈ ts
        · simp [hs, hc, hu, hts]
        · simp [hs, hc, hu, hts]

theorem undoF_of_none (tids : List String) (o : OutputRow) (h : o.spent_by_tx = none) :
    undoF tids o = if o.tx_id ∈ tids then none else some o := by
  unfold undoF
  simp only [h]

theorem undoF_of_some (tids : List String) (o : OutputRow) (u : String) (h : o.spent_by_tx = some u) :
    undoF tids o = if o.tx_id ∈ tids then none
      else if u ∈ tids then some { o with spent := false, spent_by_tx := none } else some o := by
  unfold undoF
  simp only [h]

theorem undoF_cons_right (t : String) (ts : List String) (o : OutputRow) :
    undoF (t :: ts) o = (undoF ts o).bind (undoF [t]) := by
  cases hs : o.spent_by_tx with
  | none =>
    rw [undoF_of_none (t :: ts) o hs, undoF_of_none ts o hs]
    by_cases h1 : o.tx_id = t
    · rw [if_pos (show o.tx_id ∈ t :: ts by rw [h1]; exact List.mem_cons_self t ts)]
      by_cases h2 : o.tx_id ∈ ts
      · rw [if_pos h2]
        rfl
      · rw [if_neg h2]
        show none = undoF [t] o
        rw [undoF_single, if_pos h1]
    · by_cases h2 : o.tx_id ∈ ts
      · rw [if_pos (List.mem_cons_of_mem t h2), if_pos h2]
        rfl
      · rw [if_neg (fun hm => (List.mem_cons.1 hm).elim h1 h2), if_neg h2]
        show some o = undoF [t] o
        rw [undoF_single, if_neg h1]
        unfold unspendByTx
        rw [hs]
        simp
  | some u =>
    rw [undoF_of_some (t :: ts) o u hs, undoF_of_some ts o u hs]
    by_cases h2 : o.tx_id ∈ ts
    · rw [if_pos (List.mem_cons_of_mem t h2), if_pos h2]
      rfl
    · by_cases h1 : o.tx_id = t
      · rw [if_pos (show o.tx_id ∈ t :: ts by rw [h1]; exact List.mem_cons_self t ts)]
        by_cases h4 : u ∈ ts
        · rw [if_neg h2, if_pos h4]
          show none = undoF [t] ({ o with spent := false, spent_by_tx := none } : OutputRow)
          rw [undoF_single, if_pos (show ({ o with spent := false, spent_by_tx := none } : OutputRow).tx_id = t from h1)]
        · rw [if_neg h2, if_neg h4]
          show none = undoF [t] o
          rw [undoF_single, if_pos h1]
      · rw [if_neg (fun hm => (List.mem_cons.1 hm).elim h1 h2), if_neg h2]
        by_cases h4 : u ∈ ts
        · rw [if_pos (List.mem_cons_of_mem t h4), if_pos h4]
          show some ({ o with spent := false, spent_by_tx := none } : OutputRow) = undoF [t] ({ o with spent := false, spent_by_tx := none } : OutputRow)
          rw [undoF_single, if_neg (show ¬({ o with spent := false, spent_by_tx := none } : OutputRow).tx_id = t from h1)]
          unfold unspendByTx
          simp
        · by_cases h3 : u = t
          · rw [if_pos (show u ∈ t :: ts by rw [h3]; exact List.mem_cons_self t ts), if_neg h4]
            show some ({ o with spent := false, spent_by_tx := none } : OutputRow) = undoF [t] o
            rw [undoF_single, if_neg h1]
            unfold unspendByTx
            rw [hs]
            simp [h3]
          · rw [if_neg (fun hm => (List.mem_cons.1 hm).elim h3 h4), if_neg h4]
            show some o = undoF [t] o
            rw [undoF_single, if_neg h1]
            unfold unspendByTx
            rw [hs]
            simp [h3]

theorem foldl_undoTx : ∀ (tids : List String) (outs : List OutputRow),
    tids.foldl undoTx outs = outs.filterMap (undoF tids) := by
  intro tids
  induction tids with
  | nil =>
    intro outs
    rw [List.foldl_nil, filterMap_id_of (undoF []) outs (fun a _ => undoF_nil a)]
  | cons t ts ih =>
    intro outs
    rw [List.foldl_cons, ih (undoTx outs t), undoTx_eq_filterMap, List.filterMap_filterMap]
    refine (List.filterMap_congr ?_).symm
    intro o _
    exact undoF_cons_left t ts o

theorem processTxs_undo {s0 : Store} {bid : String} {bh : Nat} : ∀ {txs : List Transaction} {w w' : Work},
    processTxs s0 bid bh w txs = .ok w' → WorkSC w →
    w'.outputs.filterMap (undoF (txs.map (·.id))) = w.outputs := by
  intro txs
  induction txs with
  | nil =>
    intro w w' h _
    simp only [processTxs] at h
    cases h
    exact filterMap_id_of _ _ (fun a _ => undoF_nil a)
  | cons t rest ih =>
    intro w w' h hsc
    simp only [processTxs] at h
    cases hp : processTx s0 bid bh w t with
    | error e => rw [hp] at h; exact Except.noConfusion h
    | ok w₁ =>
      rw [hp] at h
      obtain ⟨-, hfresh, -, m, hMF, houts⟩ := processTx_ok hp
      have hsc₁ := processTx_SC hp hsc
      have hIH := ih h hsc₁
      have hstep : w'.outputs.filterMap (undoF ((t :: rest).map (·.id)))
          = (w'.outputs.filterMap (undoF (rest.map (·.id)))).filterMap (undoF [t.id]) := by
        rw [List.map_cons, List.filterMap_filterMap]
        exact List.filterMap_congr (fun o _ => undoF_cons_right t.id (rest.map (·.id)) o)
      rw [hstep, hIH, houts, List.filterMap_append]
      have h1 : (w.outputs.map m).filterMap (undoF [t.id]) = w.outputs := by
        rw [List.filterMap_map]
        refine filterMap_id_of _ _ ?_
        intro o ho
        have htxid : o.tx_id ≠ t.id := by
          obtain ⟨tr, htr, hid⟩ := hsc.1 o ho
          rw [← hid]
          exact hfresh tr htr
        rcases hMF o with hmo | hmo
        · show undoF [t.id] (m o) = some o
          rw [hmo, undoF_single, if_neg htxid]
          unfold unspendByTx
          cases hsp : o.spent_by_tx with
          | none => simp
          | some u =>
            have hu : u ≠ t.id := by
              obtain ⟨tr, htr, hid⟩ := hsc.2.1 o ho u hsp
              rw [← hid]
              exact hfresh tr htr
            simp [hu]
        · show undoF [t.id] (m o) = some o
          rw [hmo.2, undoF_single]
          rw [if_neg (show ¬({ o with spent := true, spent_by_tx := some t.id } : OutputRow).tx_id = t.id from htxid)]
          have hnone := hsc.2.2 o ho hmo.1
          unfold unspendByTx
          rw [if_pos (show (({ o with spent := true, spent_by_tx := some t.id } : OutputRow).spent_by_tx == some t.id) = true by simp)]
          exact congrArg some (unspent_eta hmo.1 hnone)
      have h2 : (outputRowsOf t.id t.outputs 0).filterMap (undoF [t.id]) = [] := by
        rw [List.filterMap_eq_nil_iff]
        intro o ho
        rw [undoF_single, if_pos (outputRowsOf_mem ho).1]
      rw [h1, h2, List.append_nil]

/-! ### Whole-block lemmas and store invariants -/

theorem ingestBlock_ok {sha : String → String} {s : Store} {b : Block} {s' : Store}
    (h : ingestBlock sha s b = .ok s') :
    b.height = s.current_height + 1 ∧
    b.id = calculateBlockHash sha b.height (b.transactions.map (·.id)) ∧
    (∀ r ∈ s.blocks, r.id ≠ b.id ∧ r.height ≠ b.height) ∧
    ∃ w, processTxs s b.id b.height ⟨s.transactions, s.outputs⟩ b.transactions = .ok w ∧
      s' = ⟨s.blocks ++ [⟨b.id, b.height⟩], w.transactions, w.outputs, b.height⟩ := by
  simp only [ingestBlock, getCurrentHeight] at h
  by_cases h1 : b.height ≠ s.current_height + 1
  · rw [if_pos h1] at h
    exact Except.noConfusion h
  · rw [if_neg h1] at h
    by_cases h2 : b.id ≠ calculateBlockHash sha b.height (b.transactions.map (·.id))
    · rw [if_pos h2] at h
      exact Except.noConfusion h
    · rw [if_neg h2] at h
      by_cases h3 : (s.blocks.any fun r => r.id == b.id || r.height == b.height) = true
      · rw [if_pos h3] at h
        exact Except.noConfusion h
      · rw [if_neg h3] at h
        cases hw : processTxs s b.id b.height ⟨s.transactions, s.outputs⟩ b.transactions with
        | error e => rw [hw] at h; exact Except.noConfusion h
        | ok w =>
          rw [hw] at h
          simp only [Except.ok.injEq] at h
          refine ⟨Decidable.not_not.1 h1, Decidable.not_not.1 h2, ?_, w, rfl, h.symm⟩
          intro r hr
          constructor
          · intro hid
            exact h3 (List.any_eq_true.2 ⟨r, hr, by rw [hid]; simp⟩)
          · intro hht2
            exact h3 (List.any_eq_true.2 ⟨r, hr, by rw [hht2]; simp⟩)

/-- Key list of the outputs table: the `(tx_id, output_index)` primary
key of each row, with the primary-key constraint as `Nodup`. -/
def keysNodup (outs : List OutputRow) : Prop :=
  (outs.map (fun o => (o.tx_id, o.output_index))).Nodup

theorem outputRowsOf_keys_nodup (tid : String) : ∀ (l : List Output) (i : Nat),
    ((outputRowsOf tid l i).map (fun o => (o.tx_id, o.output_index))).Nodup := by
  intro l
  induction l with
  | nil => intro i; simp [outputRowsOf]
  | cons x rest ih =>
    intro i
    rw [outputRowsOf, List.map_cons, List.nodup_cons]
    refine ⟨?_, ih (i + 1)⟩
    intro hmem
    obtain ⟨o, ho, hk⟩ := List.mem_map.1 hmem
    have hge := (outputRowsOf_mem ho).2.2.2
    have : o.output_index = i := by
      have := congrArg Prod.snd hk
      simpa using this
    rw [this] at hge
    exact absurd hge (by omega)

theorem processTx_keys {s0 : Store} {bid : String} {bh : Nat} {w : Work} {tx : Transaction} {w' : Work}
    (hp : processTx s0 bid bh w tx = .ok w') (hsc : WorkSC w) (hk : keysNodup w.outputs) :
    keysNodup w'.outputs := by
  obtain ⟨-, hfresh, -, m, hMF, houts⟩ := processTx_ok hp
  unfold keysNodup at hk ⊢
  rw [houts, List.map_append, List.nodup_append]
  have hmapkeys : (w.outputs.map m).map (fun o => (o.tx_id, o.output_index))
      = w.outputs.map (fun o => (o.tx_id, o.output_index)) := by
    rw [List.map_map]
    refine List.map_congr_left ?_
    intro o _
    rcases hMF o with h1 | h2
    · show ((m o).tx_id, (m o).output_index) = _
      rw [h1]
    · show ((m o).tx_id, (m o).output_index) = _
      rw [h2.2]
  rw [hmapkeys]
  refine ⟨hk, outputRowsOf_keys_nodup tx.id tx.outputs 0, ?_⟩
  intro k hk1 hk2
  obtain ⟨o, ho, hko⟩ := List.mem_map.1 hk1
  obtain ⟨o', ho', hko'⟩ := List.mem_map.1 hk2
  have h1 : o.tx_id = k.1 := by rw [← hko]
  have h2 : o'.tx_id = k.1 := by rw [← hko']
  have h3 := (outputRowsOf_mem ho').1
  obtain ⟨tr, htr, hid⟩ := hsc.1 o ho
  apply hfresh tr htr
  rw [hid, h1, ← h2, h3]

theorem processTxs_keys {s0 : Store} {bid : String} {bh : Nat} : ∀ {txs : List Transaction} {w w' : Work},
    processTxs s0 bid bh w txs = .ok w' → WorkSC w → keysNodup w.outputs → keysNodup w'.outputs := by
  intro txs
  induction txs with
  | nil => intro w w' h _ hk; simp only [processTxs] at h; cases h; exact hk
  | cons t rest ih =>
    intro w w' h hsc hk
    simp only [processTxs] at h
    cases hp : processTx s0 bid bh w t with
    | error e => rw [hp] at h; exact Except.noConfusion h
    | ok w₁ =>
      rw [hp] at h
      exact ih h (processTx_SC hp hsc) (processTx_keys hp hsc hk)

/-- Invariants holding in every committed (reachable) store state. -/
structure Inv (s : Store) : Prop where
  heights : s.blocks.map (·.height) = List.range' 1 s.current_height
  tx_heights : ∀ t ∈ s.transactions, 1 ≤ t.block_height ∧ t.block_height ≤ s.current_height
  sc : WorkSC ⟨s.transactions, s.outputs⟩
  keys : keysNodup s.outputs

theorem Inv_initialStore : Inv initialStore := by
  refine ⟨rfl, ?_, ?_, ?_⟩
  · intro t ht
    cases ht
  · refine ⟨?_, ?_, ?_⟩
    · intro o ho
      cases ho
    · intro o ho
      cases ho
    · intro o ho
      cases ho
  · simp [keysNodup, initialStore]

theorem ingest_Inv {sha : String → String} {s : Store} {b : Block} {s' : Store}
    (hInv : Inv s) (h : ingestBlock sha s b = .ok s') : Inv s' := by
  obtain ⟨hht, -, -, w, hw, hs'⟩ := ingestBlock_ok h
  have htx := processTxs_txRows hw
  refine ⟨?_, ?_, ?_, ?_⟩
  · rw [hs']
    show (s.blocks ++ [({ id := b.id, height := b.height } : BlockRow)]).map (·.height) = List.range' 1 b.height
    rw [List.map_append, hInv.heights, hht, List.range'_1_concat, Nat.add_comm 1 s.current_height]
    simp
  · rw [hs']
    intro t ht
    show 1 ≤ t.block_height ∧ t.block_height ≤ b.height
    simp only at ht
    rw [htx] at ht
    rcases List.mem_append.1 ht with hmem | hmem
    · obtain ⟨hh1, hh2⟩ := hInv.tx_heights t hmem
      exact ⟨hh1, by omega⟩
    · obtain ⟨tx, -, rfl⟩ := List.mem_map.1 hmem
      constructor
      · show 1 ≤ b.height
        omega
      · show b.height ≤ b.height
        exact Nat.le_refl _
  · rw [hs']
    exact processTxs_SC hw hInv.sc
  · rw [hs']
    exact processTxs_keys hw hInv.sc hInv.keys

theorem ingest_undoBlock {sha : String → String} {s : Store} {b : Block} {s' : Store}
    (hInv : Inv s) (h : ingestBlock sha s b = .ok s') (hh : Nat) :
    undoBlock ⟨s'.blocks, s'.transactions, s'.outputs, hh⟩ ⟨b.id, b.height⟩
      = ⟨s.blocks, s.transactions, s.outputs, hh⟩ := by
  obtain ⟨hht, -, hfreshb, w, hw, hs'⟩ := ingestBlock_ok h
  have htx : s'.transactions = s.transactions ++ b.transactions.map (fun t => ⟨t.id, b.id, b.height⟩) := by
    rw [hs']
    exact processTxs_txRows hw
  have hb : s'.blocks = s.blocks ++ [({ id := b.id, height := b.height } : BlockRow)] := by
    rw [hs']
  have ho : s'.outputs = w.outputs := by
    rw [hs']
  have hfilter : s'.transactions.filter (fun t => t.block_height == b.height)
      = b.transactions.map (fun t => ⟨t.id, b.id, b.height⟩) := by
    rw [htx, List.filter_append]
    have h1 : s.transactions.filter (fun t => t.block_height == b.height) = [] := by
      rw [List.filter_eq_nil_iff]
      intro t ht
      have := (hInv.tx_heights t ht).2
      simp only [beq_iff_eq]
      omega
    have h2 : (b.transactions.map (fun t => (⟨t.id, b.id, b.height⟩ : TxRow))).filter (fun t => t.block_height == b.height)
        = b.transactions.map (fun t => ⟨t.id, b.id, b.height⟩) := by
      rw [List.filter_eq_self]
      intro t ht
      obtain ⟨tx, -, rfl⟩ := List.mem_map.1 ht
      simp
    rw [h1, h2, List.nil_append]
  have htids : (s'.transactions.filter (fun t => t.block_height == b.height)).map (·.id)
      = b.transactions.map (·.id) := by
    rw [hfilter, List.map_map]
    rfl
  simp only [undoBlock]
  have e1 : s'.blocks.filter (fun r => !(r.id == b.id)) = s.blocks := by
    rw [hb, List.filter_append]
    have h1 : s.blocks.filter (fun r => !(r.id == b.id)) = s.blocks := by
      rw [List.filter_eq_self]
      intro r hr
      simpa using (hfreshb r hr).1
    have h2 : ([({ id := b.id, height := b.height } : BlockRow)]).filter (fun r => !(r.id == b.id)) = [] := by
      simp
    rw [h1, h2, List.append_nil]
  have e2 : s'.transactions.filter (fun t => !(t.block_height == b.height)) = s.transactions := by
    rw [htx, List.filter_append]
    have h1 : s.transactions.filter (fun t => !(t.block_height == b.height)) = s.transactions := by
      rw [List.filter_eq_self]
      intro t ht
      have := (hInv.tx_heights t ht).2
      simp only [Bool.not_eq_true', beq_eq_false_iff_ne]
      omega
    have h2 : (b.transactions.map (fun t => (⟨t.id, b.id, b.height⟩ : TxRow))).filter (fun t => !(t.block_height == b.height)) = [] := by
      rw [List.filter_eq_nil_iff]
      intro t ht
      obtain ⟨tx, -, rfl⟩ := List.mem_map.1 ht
      simp
    rw [h1, h2, List.append_nil]
  have e3 : (((s'.transactions.filter (fun t => t.block_height == b.height)).map (·.id)).foldl undoTx s'.outputs) = s.outputs := by
    rw [htids, foldl_undoTx, ho]
    exact processTxs_undo hw hInv.sc
  rw [e1, e2, e3]

/-! ### Sorting and chain lemmas -/

theorem mem_insertDesc {b x : BlockRow} : ∀ {l : List BlockRow}, x ∈ insertDesc b l ↔ x = b ∨ x ∈ l := by
  intro l
  induction l with
  | nil => simp [insertDesc]
  | cons c cs ih =>
    unfold insertDesc
    split
    · simp [List.mem_cons]
    · rw [List.mem_cons, ih, List.mem_cons]
      tauto

theorem insertDesc_append_of_lt {b : BlockRow} : ∀ {l : List BlockRow},
    (∀ c ∈ l, b.height < c.height) → insertDesc b l = l ++ [b] := by
  intro l
  induction l with
  | nil => intro _; rfl
  | cons c cs ih =>
    intro hlt
    unfold insertDesc
    rw [if_neg (by have := hlt c (List.mem_cons_self c cs); omega)]
    rw [ih (fun x hx => hlt x (List.mem_cons_of_mem c hx))]
    rfl

theorem mem_sortByHeightDesc {x : BlockRow} : ∀ {l : List BlockRow}, x ∈ sortByHeightDesc l ↔ x ∈ l := by
  intro l
  induction l with
  | nil => simp [sortByHeightDesc]
  | cons c cs ih =>
    unfold sortByHeightDesc
    rw [mem_insertDesc, ih, List.mem_cons]

theorem sortByHeightDesc_cons_min {b : BlockRow} {l : List BlockRow}
    (hlt : ∀ c ∈ l, b.height < c.height) :
    sortByHeightDesc (b :: l) = sortByHeightDesc l ++ [b] := by
  show insertDesc b (sortByHeightDesc l) = sortByHeightDesc l ++ [b]
  exact insertDesc_append_of_lt (fun c hc => hlt c (mem_sortByHeightDesc.1 hc))

theorem ingestChain_cons (sha : String → String) (s : Store) (b : Block) (l : List Block) :
    ingestChain sha s (b :: l) = match ingestBlock sha s b with
      | .error e => .error e
      | .ok s' => ingestChain sha s' l := rfl

theorem ingestChain_append (sha : String → String) : ∀ (l₁ l₂ : List Block) (s : Store),
    ingestChain sha s (l₁ ++ l₂) = match ingestChain sha s l₁ with
      | .error e => .error e
      | .ok s' => ingestChain sha s' l₂ := by
  intro l₁
  induction l₁ with
  | nil => intro l₂ s; rfl
  | cons b rest ih =>
    intro l₂ s
    rw [List.cons_append, ingestChain_cons, ingestChain_cons]
    cases hb : ingestBlock sha s b with
    | error e => rfl
    | ok s₁ => exact ih l₂ s₁

theorem ingestChain_height (sha : String → String) : ∀ {bs : List Block} {s s' : Store},
    ingestChain sha s bs = .ok s' → s'.current_height = s.current_height + bs.length := by
  intro bs
  induction bs with
  | nil => intro s s' h; cases h; simp
  | cons b rest ih =>
    intro s s' h
    unfold ingestChain at h
    cases hb : ingestBlock sha s b with
    | error e => rw [hb] at h; exact Except.noConfusion h
    | ok s₁ =>
      rw [hb] at h
      obtain ⟨hht, -, -, w, -, hs₁⟩ := ingestBlock_ok hb
      have h1 : s₁.current_height = b.height := by rw [hs₁]
      have := ih h
      rw [this, h1, hht]
      simp only [List.length_cons]
      omega

theorem ingestChain_blocks (sha : String → String) : ∀ {bs : List Block} {s s' : Store},
    ingestChain sha s bs = .ok s' → s'.blocks = s.blocks ++ bs.map (fun b => (⟨b.id, b.height⟩ : BlockRow)) := by
  intro bs
  induction bs with
  | nil => intro s s' h; cases h; simp
  | cons b rest ih =>
    intro s s' h
    unfold ingestChain at h
    cases hb : ingestBlock sha s b with
    | error e => rw [hb] at h; exact Except.noConfusion h
    | ok s₁ =>
      rw [hb] at h
      obtain ⟨-, -, -, w, -, hs₁⟩ := ingestBlock_ok hb
      have h1 : s₁.blocks = s.blocks ++ [(⟨b.id, b.height⟩ : BlockRow)] := by rw [hs₁]
      rw [ih h, h1]
      simp

theorem ingestChain_Inv (sha : String → String) : ∀ {bs : List Block} {s s' : Store},
    ingestChain sha s bs = .ok s' → Inv s → Inv s' := by
  intro bs
  induction bs with
  | nil => intro s s' h hInv; cases h; exact hInv
  | cons b rest ih =>
    intro s s' h hInv
    unfold ingestChain at h
    cases hb : ingestBlock sha s b with
    | error e => rw [hb] at h; exact Except.noConfusion h
    | ok s₁ => rw [hb] at h; exact ih h (ingest_Inv hInv hb)

theorem ingestChain_heights_gt (sha : String → String) : ∀ {bs : List Block} {s s' : Store},
    ingestChain sha s bs = .ok s' → ∀ b ∈ bs, s.current_height < b.height := by
  intro bs
  induction bs with
  | nil => intro s s' _ b hb; cases hb
  | cons c rest ih =>
    intro s s' h b hb
    unfold ingestChain at h
    cases hc : ingestBlock sha s c with
    | error e => rw [hc] at h; exact Except.noConfusion h
    | ok s₁ =>
      rw [hc] at h
      obtain ⟨hht, -, -, w, -, hs₁⟩ := ingestBlock_ok hc
      have h1 : s₁.current_height = c.height := by rw [hs₁]
      rcases List.mem_cons.1 hb with rfl | hmem
      · omega
      · have := ih h b hmem
        omega

theorem Inv_block_height_le {s : Store} (hInv : Inv s) : ∀ r ∈ s.blocks, r.height ≤ s.current_height := by
  intro r hr
  have hmem : r.height ∈ s.blocks.map (·.height) := List.mem_map_of_mem _ hr
  rw [hInv.heights, List.mem_range'] at hmem
  obtain ⟨i, hi, heq⟩ := hmem
  omega

theorem chain_undo (sha : String → String) : ∀ (suffix : List Block) (sT sH : Store),
    Inv sT → ingestChain sha sT suffix = .ok sH →
    (sortByHeightDesc (sH.blocks.filter (fun r => sT.current_height < r.height))).foldl undoBlock sH
      = ⟨sT.blocks, sT.transactions, sT.outputs, sH.current_height⟩ := by
  intro suffix
  induction suffix with
  | nil =>
    intro sT sH hInv h
    cases h
    have hfil : sT.blocks.filter (fun r => sT.current_height < r.height) = [] := by
      rw [List.filter_eq_nil_iff]
      intro r hr
      have := Inv_block_height_le hInv r hr
      simp only [decide_eq_true_eq]
      omega
    rw [hfil]
    rfl
  | cons c rest ih =>
    intro sT sH hInv h
    rw [ingestChain_cons] at h
    cases hc : ingestBlock sha sT c with
    | error e => rw [hc] at h; exact Except.noConfusion h
    | ok s₁ =>
      rw [hc] at h
      obtain ⟨hht, -, -, w, -, hs₁⟩ := ingestBlock_ok hc
      have hInv₁ : Inv s₁ := ingest_Inv hInv hc
      have h1 : s₁.current_height = c.height := by rw [hs₁]
      have hbl₁ : s₁.blocks = sT.blocks ++ [(⟨c.id, c.height⟩ : BlockRow)] := by rw [hs₁]
      have hblocks : sH.blocks = (sT.blocks ++ [(⟨c.id, c.height⟩ : BlockRow)]) ++ rest.map (fun b => (⟨b.id, b.height⟩ : BlockRow)) := by
        rw [ingestChain_blocks sha h, hbl₁]
      have hrest_gt : ∀ r ∈ rest.map (fun b => (⟨b.id, b.height⟩ : BlockRow)), c.height < r.height := by
        intro r hr
        obtain ⟨b, hb, rfl⟩ := List.mem_map.1 hr
        have := ingestChain_heights_gt sha h b hb
        show c.height < b.height
        omega
      have hfilT : sH.blocks.filter (fun r => sT.current_height < r.height)
          = (⟨c.id, c.height⟩ : BlockRow) :: rest.map (fun b => (⟨b.id, b.height⟩ : BlockRow)) := by
        rw [hblocks, List.filter_append, List.filter_append]
        have f1 : sT.blocks.filter (fun r => sT.current_height < r.height) = [] := by
          rw [List.filter_eq_nil_iff]
          intro r hr
          have := Inv_block_height_le hInv r hr
          simp only [decide_eq_true_eq]
          omega
        have f2 : ([(⟨c.id, c.height⟩ : BlockRow)]).filter (fun r => sT.current_height < r.height)
            = [(⟨c.id, c.height⟩ : BlockRow)] := by
          rw [List.filter_eq_self]
          intro r hr
          rcases List.mem_singleton.1 hr with rfl
          show decide (sT.current_height < c.height) = true
          simp only [decide_eq_true_eq]
          omega
        have f3 : (rest.map (fun b => (⟨b.id, b.height⟩ : BlockRow))).filter (fun r => sT.current_height < r.height)
            = rest.map (fun b => (⟨b.id, b.height⟩ : BlockRow)) := by
          rw [List.filter_eq_self]
          intro r hr
          have := hrest_gt r hr
          simp only [decide_eq_true_eq]
          omega
        rw [f1, f2, f3, List.nil_append, List.singleton_append]
      have hfilT1 : sH.blocks.filter (fun r => s₁.current_height < r.height)
          = rest.map (fun b => (⟨b.id, b.height⟩ : BlockRow)) := by
        rw [hblocks, List.filter_append, List.filter_append]
        have f1 : sT.blocks.filter (fun r => s₁.current_height < r.height) = [] := by
          rw [List.filter_eq_nil_iff]
          intro r hr
          have := Inv_block_height_le hInv r hr
          simp only [decide_eq_true_eq]
          omega
        have f2 : ([(⟨c.id, c.height⟩ : BlockRow)]).filter (fun r => s₁.current_height < r.height) = [] := by
          rw [List.filter_eq_nil_iff]
          intro r hr
          rcases List.mem_singleton.1 hr with rfl
          simp only [decide_eq_true_eq]
          omega
        have f3 : (rest.map (fun b => (⟨b.id, b.height⟩ : BlockRow))).filter (fun r => s₁.current_height < r.height)
            = rest.map (fun b => (⟨b.id, b.height⟩ : BlockRow)) := by
          rw [List.filter_eq_self]
          intro r hr
          have := hrest_gt r hr
          simp only [decide_eq_true_eq]
          omega
        rw [f1, f2, f3, List.nil_append, List.nil_append]
      have hIH := ih s₁ sH hInv₁ h
      rw [hfilT1] at hIH
      rw [hfilT, sortByHeightDesc_cons_min hrest_gt, List.foldl_append, hIH]
      simp only [List.foldl_cons, List.foldl_nil]
      exact ingest_undoBlock hInv hc sH.current_height

/-! ### Claim theorems -/

/-- Claim C5: for every state reachable by ingesting blocks 1..H from the
empty store and every target height T with T ≤ H and H − T ≤ 2000,
`rollbackToHeight T` succeeds and returns exactly the store that existed
immediately after ingesting the first T blocks — hence the current height
equals T, every block, transaction and output created above T is gone,
every spend mark set by a transaction above T is reverted, all balances
equal their values at height T, and re-ingesting the next block behaves
identically to its first-time ingestion. -/
theorem C5_rollback_restores (sha : String → String) (bs : List Block) (T : Nat) (sH sT : Store)
    (hH : ingestChain sha initialStore bs = .ok sH)
    (hT : ingestChain sha initialStore (bs.take T) = .ok sT)
    (hle : T ≤ sH.current_height)
    (hwin : sH.current_height - T ≤ 2000) :
    rollbackToHeight sH T = .ok sT ∧
    sT.current_height = T ∧
    (∀ r ∈ sT.blocks, r.height ≤ T) ∧
    (∀ t ∈ sT.transactions, t.block_height ≤ T) := by
  have h0 : initialStore.current_height = 0 := rfl
  have hlenH := ingestChain_height sha hH
  have hlenT := ingestChain_height sha hT
  rw [List.length_take] at hlenT
  have hTeq : sT.current_height = T := by omega
  have hInvT : Inv sT := ingestChain_Inv sha hT Inv_initialStore
  have hsplit := ingestChain_append sha (bs.take T) (bs.drop T) initialStore
  rw [List.take_append_drop, hT] at hsplit
  have hdrop : ingestChain sha sT (bs.drop T) = .ok sH := hsplit.symm.trans hH
  have hmain := chain_undo sha (bs.drop T) sT sH hInvT hdrop
  rw [hTeq] at hmain
  refine ⟨?_, hTeq, ?_, ?_⟩
  · simp only [rollbackToHeight, getCurrentHeight]
    rw [if_neg (by omega), if_neg (by omega), hmain]
    show Except.ok (⟨sT.blocks, sT.transactions, sT.outputs, T⟩ : Store) = Except.ok sT
    rw [← hTeq]
  · intro r hr
    have := Inv_block_height_le hInvT r hr
    omega
  · intro t ht
    have := (hInvT.tx_heights t ht).2
    omega

/-- Identity digest used to instantiate the abstract hash parameter of
the embedding on concrete inputs. -/
def idDigest : String → String := fun s => s

/-- Genesis-style concrete block: one zero-input transaction paying 100
to `a1`, with the id the hash scheme expects. -/
def wb1 : Block := ⟨"1t1", 1, [⟨"t1", [], [⟨"a1", 100⟩]⟩]⟩

/-- Store state produced by ingesting `wb1` into the empty store. -/
def wS1 : Store :=
  ⟨[⟨"1t1", 1⟩], [⟨"t1", "1t1", 1⟩], [⟨"t1", 0, "a1", 100, false, none⟩], 1⟩

theorem C5_rollback_restores_witness :
    rollbackToHeight wS1 0 = .ok initialStore ∧ initialStore.current_height = 0 :=
  ⟨(C5_rollback_restores idDigest [wb1] 0 wS1 initialStore (by rfl) (by rfl)
      (by decide) (by decide)).1,
   (C5_rollback_restores idDigest [wb1] 0 wS1 initialStore (by rfl) (by rfl)
      (by decide) (by decide)).2.1⟩

/-! ### Error-kind classification -/

theorem calculateInputSum_error_kind {s : Store} : ∀ {inputs : List Input} {e : IngestError},
    calculateInputSum s inputs = .error e → ∃ t i, e = .outputNotFound t i ∧ getOutputValue s t i = none := by
  intro inputs
  induction inputs with
  | nil => intro e h; simp [calculateInputSum] at h
  | cons input rest ih =>
    intro e h
    simp only [calculateInputSum] at h
    cases hv : getOutputValue s input.txId input.index with
    | none =>
      rw [hv] at h
      simp only [Except.error.injEq] at h
      exact ⟨input.txId, input.index, h.symm, hv⟩
    | some ov =>
      rw [hv] at h
      cases hr : calculateInputSum s rest with
      | error e' =>
        rw [hr] at h
        simp only [Except.error.injEq] at h
        obtain ⟨t, i, he, hn⟩ := ih hr
        exact ⟨t, i, by rw [← h, he], hn⟩
      | ok r =>
        rw [hr] at h
        exact Except.noConfusion h

theorem validateTransaction_error_kind {s : Store} {tx : Transaction} {e : IngestError}
    (h : validateTransaction s tx = .error e) :
    (∃ t i, e = .outputNotFound t i) ∨ e = .valueMismatch tx.id := by
  simp only [validateTransaction] at h
  by_cases hin : 0 < tx.inputs.length
  · rw [if_pos hin] at h
    cases hc : calculateInputSum s tx.inputs with
    | error e' =>
      rw [hc] at h
      simp only [Except.error.injEq] at h
      obtain ⟨t, i, he, -⟩ := calculateInputSum_error_kind hc
      exact Or.inl ⟨t, i, by rw [← h, he]⟩
    | ok v =>
      rw [hc] at h
      simp only at h
      split at h
      · simp only [Except.error.injEq] at h
        exact Or.inr h.symm
      · exact Except.noConfusion h
  · rw [if_neg hin] at h
    simp only at h
    split at h
    · rename_i hcond
      exact absurd hcond.1 hin
    · exact Except.noConfusion h

theorem insertOutputs_error_kind {txId : String} : ∀ {l : List Output} {outs : List OutputRow} {i : Nat} {e : IngestError},
    insertOutputs txId outs l i = .error e → e = .uniqueViolation := by
  intro l
  induction l with
  | nil => intro outs i e h; simp [insertOutputs] at h
  | cons o rest ih =>
    intro outs i e h
    simp only [insertOutputs] at h
    split at h
    · simp only [Except.error.injEq] at h
      exact h.symm
    · exact ih h

theorem processTx_error_kind {s0 : Store} {bid : String} {bh : Nat} {w : Work} {tx : Transaction} {e : IngestError}
    (h : processTx s0 bid bh w tx = .error e) :
    (∃ t i, e = .outputNotFound t i) ∨ (∃ t, e = .valueMismatch t) ∨
    (∃ t i, e = .doubleSpend t i) ∨ e = .uniqueViolation := by
  simp only [processTx] at h
  cases hv : validateTransaction s0 tx with
  | error e' =>
    rw [hv] at h
    simp only [Except.error.injEq] at h
    rcases validateTransaction_error_kind hv with ⟨t, i, he⟩ | he
    · exact Or.inl ⟨t, i, by rw [← h, he]⟩
    · exact Or.inr (Or.inl ⟨tx.id, by rw [← h, he]⟩)
  | ok u =>
    cases u
    rw [hv] at h
    simp only at h
    split at h
    · simp only [Except.error.injEq] at h
      exact Or.inr (Or.inr (Or.inr h.symm))
    · cases hmk : markInputs tx.id w.outputs tx.inputs with
      | error e' =>
        rw [hmk] at h
        simp only [Except.error.injEq] at h
        obtain ⟨t, i, he⟩ := markInputs_error tx.id tx.inputs w.outputs e' hmk
        exact Or.inr (Or.inr (Or.inl ⟨t, i, by rw [← h, he]⟩))
      | ok outs₁ =>
        simp only [hmk] at h
        cases hins : insertOutputs tx.id outs₁ tx.outputs 0 with
        | error e' =>
          simp only [hins, Except.error.injEq] at h
          exact Or.inr (Or.inr (Or.inr (by rw [← h, insertOutputs_error_kind hins])))
        | ok outs₂ =>
          simp only [hins] at h
          exact Except.noConfusion h

theorem processTxs_error_kind {s0 : Store} {bid : String} {bh : Nat} : ∀ {txs : List Transaction} {w : Work} {e : IngestError},
    processTxs s0 bid bh w txs = .error e →
    (∃ t i, e = .outputNotFound t i) ∨ (∃ t, e = .valueMismatch t) ∨
    (∃ t i, e = .doubleSpend t i) ∨ e = .uniqueViolation := by
  intro txs
  induction txs with
  | nil => intro w e h; simp [processTxs] at h
  | cons t rest ih =>
    intro w e h
    simp only [processTxs] at h
    cases hp : processTx s0 bid bh w t with
    | error e' =>
      rw [hp] at h
      simp only [Except.error.injEq] at h
      rw [← h]
      exact processTx_error_kind hp
    | ok w₁ =>
      rw [hp] at h
      exact ih h

theorem ingestBlock_height_wrong {sha : String → String} {s : Store} {b : Block}
    (h : b.height ≠ s.current_height + 1) :
    ingestBlock sha s b = .error (.invalidHeight (s.current_height + 1) b.height) := by
  simp only [ingestBlock, getCurrentHeight]
  rw [if_pos h]

theorem ingestBlock_hash_wrong {sha : String → String} {s : Store} {b : Block}
    (h1 : b.height = s.current_height + 1)
    (h2 : b.id ≠ calculateBlockHash sha b.height (b.transactions.map (·.id))) :
    ingestBlock sha s b = .error (.invalidHash (calculateBlockHash sha b.height (b.transactions.map (·.id))) b.id) := by
  simp only [ingestBlock, getCurrentHeight]
  rw [if_neg (by omega), if_pos h2]

theorem ingestBlock_after_checks {sha : String → String} {s : Store} {b : Block}
    (h1 : b.height = s.current_height + 1)
    (h2 : b.id = calculateBlockHash sha b.height (b.transactions.map (·.id)))
    (h3 : (s.blocks.any fun r => r.id == b.id || r.height == b.height) = false) :
    ingestBlock sha s b = match processTxs s b.id b.height ⟨s.transactions, s.outputs⟩ b.transactions with
      | .error e => .error e
      | .ok w => .ok ⟨s.blocks ++ [⟨b.id, b.height⟩], w.transactions, w.outputs, b.height⟩ := by
  simp only [ingestBlock, getCurrentHeight]
  rw [if_neg (by omega), if_neg (by rw [← h2]; exact fun hc => hc rfl), if_neg (by rw [h3]; exact Bool.false_ne_true)]

/-- Claim C1: when ingestion fails for any reason, the visible store —
the blocks, transactions and outputs record sets and the current-height
marker — is exactly the pre-attempt state: the atomic unit is rolled
back and no write of the failed attempt remains. -/
theorem C1_ingest_atomicity (sha : String → String) (s : Store) (b : Block) (e : IngestError)
    (h : ingestBlock sha s b = .error e) :
    ingestVisible sha s b = s ∧
    (ingestVisible sha s b).blocks = s.blocks ∧
    (ingestVisible sha s b).transactions = s.transactions ∧
    (ingestVisible sha s b).outputs = s.outputs ∧
    (ingestVisible sha s b).current_height = s.current_height := by
  have hv : ingestVisible sha s b = s := by
    unfold ingestVisible
    rw [h]
  exact ⟨hv, by rw [hv], by rw [hv], by rw [hv], by rw [hv]⟩

/-- Height-5 block against the empty store: a concrete failing ingestion. -/
def wbBad5 : Block := ⟨"x", 5, []⟩

theorem C1_ingest_atomicity_witness : ingestVisible idDigest initialStore wbBad5 = initialStore :=
  (C1_ingest_atomicity idDigest initialStore wbBad5 (.invalidHeight 1 5) (by rfl)).1

/-- Claim C6: ingestion fails with `InvalidHeight` exactly when the block
height differs from current height + 1; consequently no block of any
other height is ever ingested successfully. -/
theorem C6_height_check (sha : String → String) (s : Store) (b : Block) :
    ((∃ e g, ingestBlock sha s b = .error (.invalidHeight e g)) ↔ b.height ≠ s.current_height + 1) ∧
    (∀ s', ingestBlock sha s b = .ok s' → b.height = s.current_height + 1) := by
  constructor
  · constructor
    · rintro ⟨e, g, h⟩ heq
      by_cases h2 : b.id = calculateBlockHash sha b.height (b.transactions.map (·.id))
      · by_cases h3 : (s.blocks.any fun r => r.id == b.id || r.height == b.height) = true
        · rw [show ingestBlock sha s b = .error .uniqueViolation by
            simp only [ingestBlock, getCurrentHeight]
            rw [if_neg (by omega), if_neg (by rw [← h2]; exact fun hc => hc rfl), if_pos h3]] at h
          simp at h
        · rw [ingestBlock_after_checks heq h2 (Bool.not_eq_true _ ▸ h3)] at h
          cases hw : processTxs s b.id b.height ⟨s.transactions, s.outputs⟩ b.transactions with
          | error e' =>
            rw [hw] at h
            simp only [Except.error.injEq] at h
            rcases processTxs_error_kind hw with ⟨t, i, he⟩ | ⟨t, he⟩ | ⟨t, i, he⟩ | he <;>
              rw [he] at h <;> simp at h
          | ok w =>
            rw [hw] at h
            exact Except.noConfusion h
      · rw [ingestBlock_hash_wrong heq h2] at h
        simp at h
    · intro hne
      exact ⟨s.current_height + 1, b.height, ingestBlock_height_wrong hne⟩
  · intro s' h
    exact (ingestBlock_ok h).1

theorem C6_height_check_witness :
    ∃ e g, ingestBlock idDigest initialStore wbBad5 = .error (.invalidHeight e g) :=
  (C6_height_check idDigest initialStore wbBad5).1.mpr (by decide)

/-- Claim C7: rollback fails with `FutureHeight` when the target is above
the current height and with `RollbackWindowExceeded` when the depth
exceeds 2000 (a depth of exactly 2000 is allowed and the unwind then
proceeds); every failing rollback leaves the visible store unchanged. -/
theorem C7_rollback_guards (s : Store) (T : Nat) :
    (T > s.current_height → rollbackToHeight s T = .error (.futureHeight T s.current_height)) ∧
    (T ≤ s.current_height → s.current_height - T > 2000 →
      rollbackToHeight s T = .error (.rollbackWindowExceeded (s.current_height - T))) ∧
    (T ≤ s.current_height → s.current_height - T ≤ 2000 →
      ∃ s', rollbackToHeight s T = .ok s') ∧
    (∀ e, rollbackToHeight s T = .error e → rollbackVisible s T = s) := by
  refine ⟨?_, ?_, ?_, ?_⟩
  · intro hgt
    simp only [rollbackToHeight, getCurrentHeight]
    rw [if_pos hgt]
  · intro hle hwin
    simp only [rollbackToHeight, getCurrentHeight]
    rw [if_neg (by omega), if_pos hwin]
  · intro hle hwin
    simp only [rollbackToHeight, getCurrentHeight]
    rw [if_neg (by omega), if_neg (by omega)]
    exact ⟨_, rfl⟩
  · intro e h
    unfold rollbackVisible
    rw [h]

theorem C7_rollback_guards_witness :
    rollbackToHeight initialStore 5 = .error (.futureHeight 5 0) :=
  (C7_rollback_guards initialStore 5).1 (by decide)

/-- Claim C9 (amended): the hash verifier digests exactly the decimal
string of the height concatenated with the transaction ids in block order
with no separators; and, given that the height check passes, ingestion
fails with `InvalidHash` exactly when the block id differs from the
recomputed digest.  (Unamended, the right-hand side of the equivalence
lacks the height-check conjunct; a block with both a wrong height and a
wrong id fails with `InvalidHeight` instead.) -/
theorem C9_hash_check (sha : String → String) (s : Store) (b : Block) :
    calculateBlockHash sha b.height (b.transactions.map (·.id))
      = sha (toString b.height ++ String.join (b.transactions.map (·.id))) ∧
    ((∃ e g, ingestBlock sha s b = .error (.invalidHash e g)) ↔
      (b.height = s.current_height + 1 ∧
       b.id ≠ calculateBlockHash sha b.height (b.transactions.map (·.id)))) := by
  refine ⟨rfl, ?_⟩
  constructor
  · rintro ⟨e, g, h⟩
    by_cases h1 : b.height = s.current_height + 1
    · refine ⟨h1, ?_⟩
      intro hid
      by_cases h3 : (s.blocks.any fun r => r.id == b.id || r.height == b.height) = true
      · rw [show ingestBlock sha s b = .error .uniqueViolation by
          simp only [ingestBlock, getCurrentHeight]
          rw [if_neg (by omega), if_neg (by rw [← hid]; exact fun hc => hc rfl), if_pos h3]] at h
        simp at h
      · rw [ingestBlock_after_checks h1 hid (Bool.not_eq_true _ ▸ h3)] at h
        cases hw : processTxs s b.id b.height ⟨s.transactions, s.outputs⟩ b.transactions with
        | error e' =>
          rw [hw] at h
          simp only [Except.error.injEq] at h
          rcases processTxs_error_kind hw with ⟨t, i, he⟩ | ⟨t, he⟩ | ⟨t, i, he⟩ | he <;>
            rw [he] at h <;> simp at h
        | ok w =>
          rw [hw] at h
          exact Except.noConfusion h
    · rw [ingestBlock_height_wrong h1] at h
      simp at h
  · rintro ⟨h1, h2⟩
    exact ⟨_, _, ingestBlock_hash_wrong h1 h2⟩

/-- Height-2, wrong-id block against the empty store. -/
def wbBadHH : Block := ⟨"x", 2, []⟩

theorem C9_hash_check_counterexample :
    wbBadHH.id ≠ calculateBlockHash idDigest wbBadHH.height (wbBadHH.transactions.map (·.id)) ∧
    ingestBlock idDigest initialStore wbBadHH = .error (.invalidHeight 1 2) ∧
    (∀ e g, ingestBlock idDigest initialStore wbBadHH ≠ .error (.invalidHash e g)) := by
  refine ⟨by decide, by rfl, ?_⟩
  intro e g h
  rw [show ingestBlock idDigest initialStore wbBadHH = .error (.invalidHeight 1 2) from rfl] at h
  simp at h

/-- Height-1 block with an id that does not match the digest. -/
def wbHashBad : Block := ⟨"zz", 1, []⟩

theorem C9_hash_check_witness :
    ∃ e g, ingestBlock idDigest initialStore wbHashBad = .error (.invalidHash e g) :=
  (C9_hash_check idDigest initialStore wbHashBad).2.mpr (by decide)

/-- Block whose second transaction spends an output created by its first
transaction. -/
def chainBlk : Block :=
  ⟨"1t1t2", 1, [⟨"t1", [], [⟨"a1", 100⟩]⟩, ⟨"t2", [⟨"t1", 0⟩], [⟨"b1", 100⟩]⟩]⟩

/-- Claim C2 (code evaluation): a block whose transactions are
individually conserving and reference, in order, only outputs that exist
and are unspent in the state produced by the previously processed
transactions — here the second transaction spends the first
transaction's output — is nevertheless rejected with `OutputNotFound`:
`validateTransaction` reads through the pool connection, which under
read-committed isolation cannot see the output row the open atomic unit
inserted for the first transaction.  The visible store is unchanged. -/
theorem C2_same_block_chain_rejected :
    ingestBlock idDigest initialStore chainBlk = .error (.outputNotFound "t1" 0) ∧
    ingestVisible idDigest initialStore chainBlk = initialStore := ⟨rfl, rfl⟩

/-! ### Balance query -/

theorem getBalance_foldl (a : String) : ∀ (l : List OutputRow) (acc : Int),
    l.foldl (fun acc o => if o.address == a && o.spent == false then acc + o.value else acc) acc
      = acc + ((l.filter (fun o => o.address == a && o.spent == false)).map (·.value)).sum := by
  intro l
  induction l with
  | nil => intro acc; simp
  | cons o rest ih =>
    intro acc
    by_cases hc : (o.address == a && o.spent == false) = true
    · rw [List.foldl_cons, List.filter_cons]
      simp only [hc, if_true]
      rw [ih (acc + o.value), List.map_cons, List.sum_cons]
      ring
    · rw [List.foldl_cons, List.filter_cons]
      have hc' : (o.address == a && o.spent == false) = false := Bool.not_eq_true _ ▸ hc
      simp only [hc', Bool.false_eq_true, if_false]
      exact ih acc

/-- Claim C8 (amended): `getBalance` is read-only and returns the integer
sum of the values of the currently-unspent outputs whose address equals
the queried address, 0 when there are none (an unknown address never
fails), and that sum is non-negative whenever every stored output value
is non-negative.  Unamended non-negativity fails: the engine never checks
the sign of declared output values, so reachable stores can hold
negative-value outputs and negative balances. -/
theorem C8_balance_spec (s : Store) (a : String) :
    getBalance s a = ((s.outputs.filter (fun o => o.address == a && o.spent == false)).map (·.value)).sum ∧
    (s.outputs.filter (fun o => o.address == a && o.spent == false) = [] → getBalance s a = 0) ∧
    ((∀ o ∈ s.outputs, 0 ≤ o.value) → 0 ≤ getBalance s a) := by
  have h1 : getBalance s a
      = ((s.outputs.filter (fun o => o.address == a && o.spent == false)).map (·.value)).sum := by
    unfold getBalance
    rw [getBalance_foldl]
    ring
  refine ⟨h1, ?_, ?_⟩
  · intro hemp
    rw [h1, hemp]
    rfl
  · intro hnn
    rw [h1]
    apply List.sum_nonneg
    intro x hx
    obtain ⟨o, ho, rfl⟩ := List.mem_map.1 hx
    exact hnn o (List.mem_filter.1 ho).1

theorem C8_balance_spec_witness : 0 ≤ getBalance wS1 "a1" :=
  (C8_balance_spec wS1 "a1").2.2 (by decide)

/-- Genesis-style block declaring a negative output value. -/
def negBlk : Block := ⟨"1t1", 1, [⟨"t1", [], [⟨"a1", -5⟩]⟩]⟩

/-- Store produced by ingesting `negBlk` into the empty store. -/
def negStore : Store :=
  ⟨[⟨"1t1", 1⟩], [⟨"t1", "1t1", 1⟩], [⟨"t1", 0, "a1", -5, false, none⟩], 1⟩

theorem C8_balance_spec_counterexample :
    ingestChain idDigest initialStore [negBlk] = .ok negStore ∧
    getBalance negStore "a1" = -5 ∧ getBalance negStore "a1" < 0 :=
  ⟨rfl, rfl, by decide⟩

/-! ### Validator characterization -/

/-- Every input reference of the list resolves in the store (whether the
row is spent or not — resolution never consults the spent flag). -/
def refsResolve (s : Store) (inputs : List Input) : Prop :=
  ∀ inp ∈ inputs, (getOutputValue s inp.txId inp.index).isSome = true

/-- Sum of the values of the referenced outputs (0 for an unresolved
reference, which `refsResolve` rules out). -/
def refSum (s : Store) (inputs : List Input) : Int :=
  (inputs.map (fun inp => (getOutputValue s inp.txId inp.index).elim 0 (·.value))).sum

/-- Sum of the declared output values of a transaction. -/
def declaredSum (tx : Transaction) : Int :=
  (tx.outputs.map (·.value)).sum

theorem foldl_add_value : ∀ (l : List Output) (acc : Int),
    l.foldl (fun acc o => acc + o.value) acc = acc + (l.map (·.value)).sum := by
  intro l
  induction l with
  | nil => intro acc; simp
  | cons o rest ih =>
    intro acc
    rw [List.foldl_cons, ih (acc + o.value), List.map_cons, List.sum_cons]
    ring

theorem declaredSum_foldl (tx : Transaction) :
    tx.outputs.foldl (fun acc o => acc + o.value) 0 = declaredSum tx := by
  rw [foldl_add_value]
  unfold declaredSum
  ring

theorem calculateInputSum_ok_of_resolve {s : Store} : ∀ {inputs : List Input},
    refsResolve s inputs → calculateInputSum s inputs = .ok (refSum s inputs) := by
  intro inputs
  induction inputs with
  | nil => intro _; simp [calculateInputSum, refSum]
  | cons inp rest ih =>
    intro hres
    have hhead := hres inp (List.mem_cons_self inp rest)
    obtain ⟨ov, hov⟩ := Option.isSome_iff_exists.1 hhead
    have htail : refsResolve s rest := fun i hi => hres i (List.mem_cons_of_mem inp hi)
    simp only [calculateInputSum, hov, ih htail]
    unfold refSum
    simp [hov]

theorem calculateInputSum_ok_resolve {s : Store} : ∀ {inputs : List Input} {v : Int},
    calculateInputSum s inputs = .ok v → refsResolve s inputs ∧ v = refSum s inputs := by
  intro inputs
  induction inputs with
  | nil =>
    intro v h
    simp only [calculateInputSum, Except.ok.injEq] at h
    exact ⟨fun i hi => absurd hi (List.not_mem_nil i), by simp [refSum, ← h]⟩
  | cons inp rest ih =>
    intro v h
    simp only [calculateInputSum] at h
    cases hov : getOutputValue s inp.txId inp.index with
    | none =>
      rw [hov] at h
      exact Except.noConfusion h
    | some ov =>
      rw [hov] at h
      cases hr : calculateInputSum s rest with
      | error e =>
        rw [hr] at h
        exact Except.noConfusion h
      | ok r =>
        rw [hr] at h
        simp only [Except.ok.injEq] at h
        obtain ⟨hres, hrv⟩ := ih hr
        constructor
        · intro i hi
          rcases List.mem_cons.1 hi with rfl | hmem
          · rw [hov]
            rfl
          · exact hres i hmem
        · unfold refSum at hrv ⊢
          simp only [List.map_cons, List.sum_cons, hov, ← h, hrv]
          rfl

theorem calculateInputSum_missing {s : Store} : ∀ {inputs : List Input},
    (∃ inp ∈ inputs, getOutputValue s inp.txId inp.index = none) →
    ∃ t i, calculateInputSum s inputs = .error (.outputNotFound t i) ∧ getOutputValue s t i = none := by
  intro inputs
  induction inputs with
  | nil => rintro ⟨inp, hmem, -⟩; cases hmem
  | cons inp rest ih =>
    rintro ⟨i0, hmem, hnone⟩
    cases hov : getOutputValue s inp.txId inp.index with
    | none => exact ⟨inp.txId, inp.index, by simp [calculateInputSum, hov], hov⟩
    | some ov =>
      rcases List.mem_cons.1 hmem with rfl | hmem2
      · rw [hov] at hnone
        exact Option.noConfusion hnone
      · obtain ⟨t, i, herr, hn⟩ := ih ⟨i0, hmem2, hnone⟩
        exact ⟨t, i, by simp [calculateInputSum, hov, herr], hn⟩

/-- Claim C4: a zero-input transaction always validates regardless of its
output sum; a transaction with at least one input validates exactly when
all its references resolve and the referenced-value sum equals the
declared output sum, fails with `OutputNotFound` when some reference is
missing from the store, and fails with `ValueMismatch` when all
references resolve but the sums differ. -/
theorem C4_validator (s : Store) (tx : Transaction) :
    (tx.inputs = [] → validateTransaction s tx = .ok ()) ∧
    (tx.inputs ≠ [] →
      ((validateTransaction s tx = .ok ()) ↔
        (refsResolve s tx.inputs ∧ refSum s tx.inputs = declaredSum tx)) ∧
      ((∃ inp ∈ tx.inputs, getOutputValue s inp.txId inp.index = none) →
        ∃ t i, validateTransaction s tx = .error (.outputNotFound t i) ∧ getOutputValue s t i = none) ∧
      (refsResolve s tx.inputs → refSum s tx.inputs ≠ declaredSum tx →
        validateTransaction s tx = .error (.valueMismatch tx.id))) := by
  constructor
  · intro hemp
    simp [validateTransaction, hemp]
  · intro hne
    have hlen : 0 < tx.inputs.length := List.length_pos.2 hne
    refine ⟨?_, ?_, ?_⟩
    · constructor
      · intro hok
        unfold validateTransaction at hok
        rw [if_pos hlen] at hok
        cases hc : calculateInputSum s tx.inputs with
        | error e =>
          simp only [hc] at hok
          exact Except.noConfusion hok
        | ok v =>
          simp only [hc] at hok
          obtain ⟨hres, hv⟩ := calculateInputSum_ok_resolve hc
          refine ⟨hres, ?_⟩
          split at hok
          · exact Except.noConfusion hok
          · rename_i hcond
            have := Decidable.not_not.1 (fun hne2 => hcond ⟨hlen, hne2⟩)
            rw [← hv, this, declaredSum_foldl]
      · rintro ⟨hres, hsum⟩
        unfold validateTransaction
        rw [if_pos hlen, calculateInputSum_ok_of_resolve hres]
        simp only
        rw [if_neg ?_]
        rintro ⟨-, hne2⟩
        exact hne2 (by rw [declaredSum_foldl, ← hsum])
    · rintro ⟨inp, hinp, hnone⟩
      obtain ⟨t, i, herr, hn⟩ := calculateInputSum_missing ⟨inp, hinp, hnone⟩
      refine ⟨t, i, ?_, hn⟩
      unfold validateTransaction
      rw [if_pos hlen, herr]
    · intro hres hne2
      unfold validateTransaction
      rw [if_pos hlen, calculateInputSum_ok_of_resolve hres]
      simp only
      rw [if_pos ⟨hlen, by rw [declaredSum_foldl]; exact hne2⟩]

/-- A concrete zero-input transaction. -/
def coinTx : Transaction := ⟨"t", [], [⟨"a", 7⟩]⟩

theorem C4_validator_witness : validateTransaction initialStore coinTx = .ok () :=
  (C4_validator initialStore coinTx).1 rfl

/-! ### Double-spend prevention -/

/-- Some row with the given key exists and every row with that key is
spent. -/
def keyAllSpent (outs : List OutputRow) (t : String) (i : Nat) : Prop :=
  (∃ o ∈ outs, o.tx_id = t ∧ o.output_index = i) ∧
  (∀ o ∈ outs, o.tx_id = t → o.output_index = i → o.spent = true)

theorem markRow_fields (spender : String) (input : Input) (o : OutputRow) :
    (markRow spender input o).tx_id = o.tx_id ∧
    (markRow spender input o).output_index = o.output_index ∧
    (o.spent = true → markRow spender input o = o) := by
  unfold markRow
  split
  · rename_i hc
    refine ⟨rfl, rfl, ?_⟩
    intro hsp
    simp only [Bool.and_eq_true, beq_iff_eq] at hc
    rw [hsp] at hc
    exact absurd hc.2 (by simp)
  · exact ⟨rfl, rfl, fun _ => rfl⟩

theorem keyAllSpent_markRow (spender : String) (input : Input) {outs : List OutputRow} {t : String} {i : Nat}
    (h : keyAllSpent outs t i) : keyAllSpent (outs.map (markRow spender input)) t i := by
  obtain ⟨⟨o, ho, h1, h2⟩, hall⟩ := h
  constructor
  · refine ⟨markRow spender input o, List.mem_map_of_mem _ ho, ?_, ?_⟩
    · rw [(markRow_fields spender input o).1, h1]
    · rw [(markRow_fields spender input o).2.1, h2]
  · intro r hr ht hi
    obtain ⟨o₀, ho₀, rfl⟩ := List.mem_map.1 hr
    have hk1 : o₀.tx_id = t := by rw [← (markRow_fields spender input o₀).1, ht]
    have hk2 : o₀.output_index = i := by rw [← (markRow_fields spender input o₀).2.1, hi]
    have hsp := hall o₀ ho₀ hk1 hk2
    rw [(markRow_fields spender input o₀).2.2 hsp]
    exact hsp

theorem updateSpendCount_zero_of_allSpent {outs : List OutputRow} {input : Input}
    (h : ∀ o ∈ outs, o.tx_id = input.txId → o.output_index = input.index → o.spent = true) :
    updateSpendCount outs input = 0 := by
  unfold updateSpendCount
  rw [List.length_eq_zero, List.filter_eq_nil_iff]
  intro o ho hc
  simp only [Bool.and_eq_true, beq_iff_eq] at hc
  have := h o ho hc.1.1 hc.1.2
  rw [this] at hc
  exact absurd hc.2 (by simp)

theorem markInputs_not_ok_of_spent (spender : String) : ∀ {inputs : List Input} {outs : List OutputRow} {t : String} {i : Nat},
    keyAllSpent outs t i →
    (∃ inp ∈ inputs, inp.txId = t ∧ inp.index = i) →
    ∀ outs', markInputs spender outs inputs ≠ .ok outs' := by
  intro inputs
  induction inputs with
  | nil =>
    rintro outs t i - ⟨inp, hmem, -⟩ outs' -
    cases hmem
  | cons input rest ih =>
    rintro outs t i hk ⟨inp, hmem, ht, hi⟩ outs' h
    simp only [markInputs] at h
    split at h
    · exact Except.noConfusion h
    · rename_i hcnt
      rcases List.mem_cons.1 hmem with rfl | hmem2
      · apply hcnt
        apply updateSpendCount_zero_of_allSpent
        intro o ho h1 h2
        exact hk.2 o ho (by rw [h1, ht]) (by rw [h2, hi])
      · exact ih (keyAllSpent_markRow spender input hk) ⟨inp, hmem2, ht, hi⟩ outs' h

theorem processTx_not_ok_of_spent {s0 : Store} {bid : String} {bh : Nat} {w : Work} {tx : Transaction}
    (hin : ∃ inp ∈ tx.inputs, keyAllSpent w.outputs inp.txId inp.index) :
    ∀ w', processTx s0 bid bh w tx ≠ .ok w' := by
  intro w' h
  obtain ⟨inp, hmem, hk⟩ := hin
  simp only [processTx] at h
  cases hv : validateTransaction s0 tx with
  | error e =>
    rw [hv] at h
    exact Except.noConfusion h
  | ok u =>
    cases u
    rw [hv] at h
    simp only at h
    split at h
    · exact Except.noConfusion h
    · cases hmk : markInputs tx.id w.outputs tx.inputs with
      | error e =>
        simp only [hmk] at h
        exact Except.noConfusion h
      | ok outs₁ =>
        exact markInputs_not_ok_of_spent tx.id hk ⟨inp, hmem, rfl, rfl⟩ outs₁ hmk

theorem processTx_keyAllSpent {s0 : Store} {bid : String} {bh : Nat} {w : Work} {tx : Transaction} {w' : Work}
    (hp : processTx s0 bid bh w tx = .ok w') (hsc : WorkSC w) {t : String} {i : Nat}
    (hk : keyAllSpent w.outputs t i) : keyAllSpent w'.outputs t i := by
  obtain ⟨-, hfresh, -, m, hMF, houts⟩ := processTx_ok hp
  obtain ⟨⟨o, ho, h1, h2⟩, hall⟩ := hk
  have htne : t ≠ tx.id := by
    obtain ⟨tr, htr, hid⟩ := hsc.1 o ho
    rw [← h1, ← hid]
    exact hfresh tr htr
  have hmkey : ∀ o₀ : OutputRow, (m o₀).tx_id = o₀.tx_id ∧ (m o₀).output_index = o₀.output_index := by
    intro o₀
    rcases hMF o₀ with hm | hm
    · rw [hm]
      exact ⟨rfl, rfl⟩
    · rw [hm.2]
      exact ⟨rfl, rfl⟩
  have hmspent : ∀ o₀ : OutputRow, o₀.spent = true → m o₀ = o₀ := by
    intro o₀ hsp
    rcases hMF o₀ with hm | hm
    · exact hm
    · rw [hsp] at hm
      exact absurd hm.1 (by simp)
  constructor
  · refine ⟨m o, ?_, ?_, ?_⟩
    · rw [houts]
      exact List.mem_append_left _ (List.mem_map_of_mem m ho)
    · rw [(hmkey o).1, h1]
    · rw [(hmkey o).2, h2]
  · intro r hr ht hi
    rw [houts] at hr
    rcases List.mem_append.1 hr with hm | hm
    · obtain ⟨o₀, ho₀, rfl⟩ := List.mem_map.1 hm
      have hk1 : o₀.tx_id = t := by rw [← (hmkey o₀).1, ht]
      have hk2 : o₀.output_index = i := by rw [← (hmkey o₀).2, hi]
      have hsp := hall o₀ ho₀ hk1 hk2
      rw [hmspent o₀ hsp]
      exact hsp
    · have := (outputRowsOf_mem hm).1
      rw [this] at ht
      exact absurd ht.symm htne

theorem processTxs_not_ok_of_spent {s0 : Store} {bid : String} {bh : Nat} : ∀ {txs : List Transaction} {w : Work} {t : String} {i : Nat},
    WorkSC w → keyAllSpent w.outputs t i →
    (∃ tx ∈ txs, ∃ inp ∈ tx.inputs, inp.txId = t ∧ inp.index = i) →
    ∀ w', processTxs s0 bid bh w txs ≠ .ok w' := by
  intro txs
  induction txs with
  | nil =>
    rintro w t i - - ⟨tx, hmem, -⟩ w' -
    cases hmem
  | cons hd rest ih =>
    rintro w t i hsc hk ⟨tx, hmem, inp, hinp, ht, hi⟩ w' h
    simp only [processTxs] at h
    cases hp : processTx s0 bid bh w hd with
    | error e =>
      rw [hp] at h
      exact Except.noConfusion h
    | ok w₁ =>
      rw [hp] at h
      rcases List.mem_cons.1 hmem with rfl | hmem2
      · refine processTx_not_ok_of_spent ?_ w₁ hp
        refine ⟨inp, hinp, ?_⟩
        rw [ht, hi]
        exact hk
      · exact ih (processTx_SC hp hsc) (processTx_keyAllSpent hp hsc hk) ⟨tx, hmem2, inp, hinp, ht, hi⟩ w' h

theorem validateTransaction_ok_resolve {s : Store} {tx : Transaction}
    (hne : tx.inputs ≠ []) (h : validateTransaction s tx = .ok ()) : refsResolve s tx.inputs := by
  unfold validateTransaction at h
  rw [if_pos (List.length_pos.2 hne)] at h
  cases hc : calculateInputSum s tx.inputs with
  | error e =>
    simp only [hc] at h
    exact Except.noConfusion h
  | ok v => exact (calculateInputSum_ok_resolve hc).1

theorem getOutputValue_none_of_no_row {s : Store} {t : String} {i : Nat}
    (h : ∀ o ∈ s.outputs, o.tx_id = t → o.output_index = i → False) :
    getOutputValue s t i = none := by
  unfold getOutputValue
  have : s.outputs.find? (fun o => o.tx_id == t && o.output_index == i) = none := by
    rw [List.find?_eq_none]
    intro o ho hc
    simp only [Bool.and_eq_true, beq_iff_eq] at hc
    exact h o ho hc.1 hc.2
  rw [this]

/-- Claim C3 (amended): the spend-marking update sets `spent = true` and
the spending-transaction reference exactly on the matching rows that are
currently unspent, leaves spent or non-matching rows untouched, and the
update reports zero affected rows — making the engine throw
`DoubleSpend` — exactly when no unspent matching row exists.  Ingestion
of a block containing a transaction whose input references an output
that is missing from the committed store, or whose every matching row
there is already spent, always fails; a missing output surfaces as
`OutputNotFound` from validation rather than `DoubleSpend`. -/
theorem C3_spend_at_most_once (spender : String) (input : Input) (outs : List OutputRow)
    (sha : String → String) (s : Store) (b : Block) :
    ((∀ o ∈ outs,
        (o.tx_id = input.txId → o.output_index = input.index → o.spent = false →
          markRow spender input o = { o with spent := true, spent_by_tx := some spender }) ∧
        (o.spent = true → markRow spender input o = o) ∧
        (¬(o.tx_id = input.txId ∧ o.output_index = input.index) → markRow spender input o = o)) ∧
      (updateSpendCount outs input = 0 ↔
        ∀ o ∈ outs, o.tx_id = input.txId → o.output_index = input.index → o.spent = true)) ∧
    (Inv s →
      (∃ tx ∈ b.transactions, ∃ inp ∈ tx.inputs,
        ∀ o ∈ s.outputs, o.tx_id = inp.txId → o.output_index = inp.index → o.spent = true) →
      ∀ s', ingestBlock sha s b ≠ .ok s') := by
  constructor
  · constructor
    · intro o _
      refine ⟨?_, (markRow_fields spender input o).2.2, ?_⟩
      · intro h1 h2 h3
        unfold markRow
        rw [if_pos (by simp [h1, h2, h3])]
      · intro hkey
        unfold markRow
        rw [if_neg ?_]
        intro hc
        simp only [Bool.and_eq_true, beq_iff_eq] at hc
        exact hkey ⟨hc.1.1, hc.1.2⟩
    · constructor
      · intro hz o ho h1 h2
        by_contra hsp
        have hfalse : o.spent = false := Bool.not_eq_true _ ▸ hsp
        have : o ∈ outs.filter (fun o => o.tx_id == input.txId && o.output_index == input.index && o.spent == false) := by
          rw [List.mem_filter]
          exact ⟨ho, by simp [h1, h2, hfalse]⟩
        unfold updateSpendCount at hz
        rw [List.length_eq_zero] at hz
        rw [hz] at this
        cases this
      · exact updateSpendCount_zero_of_allSpent
  · rintro hInv ⟨tx, htx, inp, hinp, hall⟩ s' hok
    obtain ⟨-, -, -, w, hw, -⟩ := ingestBlock_ok hok
    by_cases hex : ∃ o ∈ s.outputs, o.tx_id = inp.txId ∧ o.output_index = inp.index
    · obtain ⟨o, ho, h1, h2⟩ := hex
      exact processTxs_not_ok_of_spent hInv.sc ⟨⟨o, ho, h1, h2⟩, hall⟩
        ⟨tx, htx, inp, hinp, rfl, rfl⟩ w hw
    · have hval := processTxs_validate hw tx htx
      have hres := validateTransaction_ok_resolve (List.ne_nil_of_mem hinp) hval
      have hsome := hres inp hinp
      have hnone : getOutputValue s inp.txId inp.index = none :=
        getOutputValue_none_of_no_row (fun o ho ht hi => hex ⟨o, ho, ht, hi⟩)
      rw [hnone] at hsome
      exact Bool.noConfusion hsome

/-- Block referencing a non-existent output. -/
def missBlk : Block := ⟨"1tm", 1, [⟨"tm", [⟨"ghost", 0⟩], [⟨"a1", 7⟩]⟩]⟩

theorem C3_spend_at_most_once_counterexample :
    ingestBlock idDigest initialStore missBlk = .error (.outputNotFound "ghost" 0) ∧
    (∀ t i, ingestBlock idDigest initialStore missBlk ≠ .error (.doubleSpend t i)) := by
  refine ⟨rfl, ?_⟩
  intro t i h
  rw [show ingestBlock idDigest initialStore missBlk = .error (.outputNotFound "ghost" 0) from rfl] at h
  simp at h

/-- Two-block history: a coinbase output at height 1, spent at height 2. -/
def wS2 : Store :=
  ⟨[⟨"1t1", 1⟩, ⟨"2t2", 2⟩],
   [⟨"t1", "1t1", 1⟩, ⟨"t2", "2t2", 2⟩],
   [⟨"t1", 0, "a1", 100, true, some "t2"⟩, ⟨"t2", 0, "b1", 100, false, none⟩], 2⟩

/-- Height-3 block attempting to spend the already-spent output again. -/
def wb3 : Block := ⟨"3t3", 3, [⟨"t3", [⟨"t1", 0⟩], [⟨"c1", 100⟩]⟩]⟩

theorem Inv_wS2 : Inv wS2 := by
  refine ⟨by decide, by decide, ⟨by decide, ?_, by decide⟩,
    (by decide : (wS2.outputs.map (fun o => (o.tx_id, o.output_index))).Nodup)⟩
  intro o ho tid htid
  rcases List.mem_cons.1 ho with rfl | ho2
  · have : tid = "t2" := by
      have h := htid
      simp only [Option.some.injEq] at h
      exact h.symm
    refine ⟨⟨"t2", "2t2", 2⟩, ?_, by rw [this]⟩
    exact List.mem_cons_of_mem _ (List.mem_singleton.2 rfl)
  · rcases List.mem_singleton.1 ho2 with rfl
    exact Option.noConfusion htid

theorem C3_spend_at_most_once_witness :
    ingestBlock idDigest wS2 wb3 ≠ .ok wS2 := by
  have hex : ∃ tx ∈ wb3.transactions, ∃ inp ∈ tx.inputs,
      ∀ o ∈ wS2.outputs, o.tx_id = inp.txId → o.output_index = inp.index → o.spent = true := by
    refine ⟨⟨"t3", [⟨"t1", 0⟩], [⟨"c1", 100⟩]⟩, List.mem_singleton.2 rfl, ⟨"t1", 0⟩,
      List.mem_singleton.2 rfl, by decide⟩
  exact (C3_spend_at_most_once "x" ⟨"y", 0⟩ [] idDigest wS2 wb3).2 Inv_wS2 hex wS2

/-! ### Validation is independent of spent flags -/

/-- Rewrite every row's spent flag and spending reference by an arbitrary
function, leaving keys, addresses and values unchanged. -/
def setSpentFlags (f : OutputRow → Bool × Option String) (s : Store) : Store :=
  { s with outputs := s.outputs.map (fun o => { o with spent := (f o).1, spent_by_tx := (f o).2 }) }

theorem find?_value_setSpent (f : OutputRow → Bool × Option String) (t : String) (i : Nat) :
    ∀ (l : List OutputRow),
      (match (l.map (fun o => { o with spent := (f o).1, spent_by_tx := (f o).2 })).find?
          (fun o => o.tx_id == t && o.output_index == i) with
        | none => none
        | some o => some (⟨o.address, o.value⟩ : OutputValue))
      = (match l.find? (fun o => o.tx_id == t && o.output_index == i) with
        | none => none
        | some o => some (⟨o.address, o.value⟩ : OutputValue)) := by
  intro l
  induction l with
  | nil => rfl
  | cons o rest ih =>
    rw [List.map_cons]
    by_cases hc : (o.tx_id == t && o.output_index == i) = true
    · simp only [List.find?_cons, hc]
    · have hc' : (o.tx_id == t && o.output_index == i) = false := Bool.not_eq_true _ ▸ hc
      simp only [List.find?_cons, hc']
      exact ih

theorem getOutputValue_setSpentFlags (f : OutputRow → Bool × Option String) (s : Store) (t : String) (i : Nat) :
    getOutputValue (setSpentFlags f s) t i = getOutputValue s t i := by
  unfold getOutputValue setSpentFlags
  exact find?_value_setSpent f t i s.outputs

theorem calculateInputSum_setSpentFlags (f : OutputRow → Bool × Option String) (s : Store) :
    ∀ (inputs : List Input), calculateInputSum (setSpentFlags f s) inputs = calculateInputSum s inputs := by
  intro inputs
  induction inputs with
  | nil => rfl
  | cons inp rest ih =>
    simp only [calculateInputSum, getOutputValue_setSpentFlags, ih]

theorem validateTransaction_setSpentFlags (f : OutputRow → Bool × Option String) (s : Store) (tx : Transaction) :
    validateTransaction (setSpentFlags f s) tx = validateTransaction s tx := by
  unfold validateTransaction
  rw [calculateInputSum_setSpentFlags]

/-! ### Success-or-DoubleSpend classification of the transaction loop -/

theorem processTx_classify {s0 : Store} (bid : String) (bh : Nat) {w : Work} {tx : Transaction}
    (hsc : WorkSC w) (hval : validateTransaction s0 tx = .ok ())
    (hfresh : ∀ tr ∈ w.transactions, tr.id ≠ tx.id) :
    (∃ w₁, processTx s0 bid bh w tx = .ok w₁) ∨
    (∃ t i, processTx s0 bid bh w tx = .error (.doubleSpend t i)) := by
  have hany : (w.transactions.any fun t => t.id == tx.id) = false := by
    rw [List.any_eq_false]
    intro tr htr
    simpa using hfresh tr htr
  cases hmk : markInputs tx.id w.outputs tx.inputs with
  | error e =>
    obtain ⟨t, i, he⟩ := markInputs_error tx.id tx.inputs w.outputs e hmk
    right
    refine ⟨t, i, ?_⟩
    simp only [processTx, hval, hany, Bool.false_eq_true, if_false, hmk, he]
  | ok outs₁ =>
    obtain ⟨m, hm, hMF⟩ := markInputs_map tx.id tx.inputs w.outputs outs₁ hmk
    have hins : insertOutputs tx.id outs₁ tx.outputs 0 = .ok (outs₁ ++ outputRowsOf tx.id tx.outputs 0) := by
      apply insertOutputs_ok
      intro r hr htxid
      rw [hm] at hr
      obtain ⟨o₀, ho₀, rfl⟩ := List.mem_map.1 hr
      have hkey : (m o₀).tx_id = o₀.tx_id := by
        rcases hMF o₀ with h | h
        · rw [h]
        · rw [h.2]
      rw [hkey] at htxid
      obtain ⟨tr, htr, hid⟩ := hsc.1 o₀ ho₀
      exact absurd (hid.trans htxid) (hfresh tr htr)
    left
    refine ⟨⟨w.transactions ++ [⟨tx.id, bid, bh⟩], outs₁ ++ outputRowsOf tx.id tx.outputs 0⟩, ?_⟩
    simp only [processTx, hval, hany, Bool.false_eq_true, if_false, hmk, hins]

theorem processTxs_classify {s0 : Store} {bid : String} {bh : Nat} : ∀ {txs : List Transaction} {w : Work},
    WorkSC w →
    (∀ tx ∈ txs, validateTransaction s0 tx = .ok ()) →
    (txs.map (·.id)).Nodup →
    (∀ tx ∈ txs, ∀ tr ∈ w.transactions, tr.id ≠ tx.id) →
    (∃ w', processTxs s0 bid bh w txs = .ok w') ∨
    (∃ t i, processTxs s0 bid bh w txs = .error (.doubleSpend t i)) := by
  intro txs
  induction txs with
  | nil => intro w _ _ _ _; exact Or.inl ⟨w, rfl⟩
  | cons hd rest ih =>
    intro w hsc hval hnodup hfresh
    rcases processTx_classify bid bh hsc (hval hd (List.mem_cons_self hd rest))
        (hfresh hd (List.mem_cons_self hd rest)) with ⟨w₁, hp⟩ | ⟨t, i, hp⟩
    · have hsc₁ := processTx_SC hp hsc
      have htx₁ := (processTx_ok hp).2.2.1
      rw [List.map_cons, List.nodup_cons] at hnodup
      have hfresh₁ : ∀ tx ∈ rest, ∀ tr ∈ w₁.transactions, tr.id ≠ tx.id := by
        intro tx htx tr htr
        rw [htx₁] at htr
        rcases List.mem_append.1 htr with hmem | hmem
        · exact hfresh tx (List.mem_cons_of_mem hd htx) tr hmem
        · rcases List.mem_singleton.1 hmem with rfl
          show hd.id ≠ tx.id
          intro heq
          exact hnodup.1 (heq ▸ List.mem_map_of_mem (·.id) htx)
      rcases ih hsc₁ (fun tx htx => hval tx (List.mem_cons_of_mem hd htx)) hnodup.2 hfresh₁ with
        ⟨w', hw⟩ | ⟨t, i, hw⟩
      · exact Or.inl ⟨w', by simp only [processTxs, hp, hw]⟩
      · exact Or.inr ⟨t, i, by simp only [processTxs, hp, hw]⟩
    · exact Or.inr ⟨t, i, by simp only [processTxs, hp]⟩

/-- Claim C10: transaction validation never consults the spent flag —
its outcome is invariant under arbitrary rewrites of every row's spent
flag and spending reference, and a transaction whose references all
resolve (spent or not) with matching sums validates; when an
otherwise-valid block contains a transaction referencing an already-spent
output, ingestion fails with `DoubleSpend` — never with `ValueMismatch`
or `OutputNotFound`. -/
theorem C10_validation_never_consults_spent (f : OutputRow → Bool × Option String)
    (s : Store) (tx : Transaction) (sha : String → String) (b : Block) :
    (validateTransaction (setSpentFlags f s) tx = validateTransaction s tx) ∧
    (tx.inputs ≠ [] → refsResolve s tx.inputs → refSum s tx.inputs = declaredSum tx →
      validateTransaction s tx = .ok ()) ∧
    (Inv s →
      b.height = s.current_height + 1 →
      b.id = calculateBlockHash sha b.height (b.transactions.map (·.id)) →
      (∀ r ∈ s.blocks, r.id ≠ b.id) →
      (∀ tx' ∈ b.transactions, validateTransaction s tx' = .ok ()) →
      (b.transactions.map (·.id)).Nodup →
      (∀ tx' ∈ b.transactions, ∀ tr ∈ s.transactions, tr.id ≠ tx'.id) →
      (∃ tx' ∈ b.transactions, ∃ inp ∈ tx'.inputs, ∃ o ∈ s.outputs,
        o.tx_id = inp.txId ∧ o.output_index = inp.index ∧ o.spent = true) →
      ∃ t i, ingestBlock sha s b = .error (.doubleSpend t i)) := by
  refine ⟨validateTransaction_setSpentFlags f s tx, ?_, ?_⟩
  · intro hne hres hsum
    unfold validateTransaction
    rw [if_pos (List.length_pos.2 hne), calculateInputSum_ok_of_resolve hres]
    simp only
    rw [if_neg ?_]
    rintro ⟨-, hne2⟩
    exact hne2 (by rw [declaredSum_foldl, ← hsum])
  · rintro hInv hht hhash hfreshb hval hnodup hfreshtx ⟨tx', htx', inp, hinp, o, ho, h1, h2, h3⟩
    have hany : (s.blocks.any fun r => r.id == b.id || r.height == b.height) = false := by
      rw [List.any_eq_false]
      intro r hr
      have hle := Inv_block_height_le hInv r hr
      simp only [Bool.or_eq_true, beq_iff_eq, not_or]
      exact ⟨hfreshb r hr, by omega⟩
    have heq := ingestBlock_after_checks hht hhash hany
    rcases processTxs_classify hInv.sc hval hnodup hfreshtx with ⟨w', hw⟩ | ⟨t, i, hw⟩
    · exfalso
      have hall : ∀ o' ∈ s.outputs, o'.tx_id = inp.txId → o'.output_index = inp.index → o'.spent = true := by
        intro o' ho' ht' hi'
        have hkeq : (fun r : OutputRow => (r.tx_id, r.output_index)) o'
            = (fun r : OutputRow => (r.tx_id, r.output_index)) o := by
          simp only
          rw [ht', hi', h1, h2]
        have : o' = o := List.inj_on_of_nodup_map hInv.keys ho' ho hkeq
        rw [this]
        exact h3
      exact processTxs_not_ok_of_spent hInv.sc ⟨⟨o, ho, h1, h2⟩, hall⟩
        ⟨tx', htx', inp, hinp, rfl, rfl⟩ w' hw
    · refine ⟨t, i, ?_⟩
      rw [heq, hw]

theorem C10_validation_never_consults_spent_witness :
    ∃ t i, ingestBlock idDigest wS2 wb3 = .error (.doubleSpend t i) := by
  refine (C10_validation_never_consults_spent (fun _ => (false, none)) wS2 coinTx idDigest wb3).2.2
    Inv_wS2 (by decide) (by decide) (by decide) ?_ (by decide) (by decide) ?_
  · intro tx' h
    rcases List.mem_singleton.1 h with rfl
    rfl
  · refine ⟨⟨"t3", [⟨"t1", 0⟩], [⟨"c1", 100⟩]⟩, List.mem_singleton.2 rfl, ⟨"t1", 0⟩,
      List.mem_singleton.2 rfl, ⟨"t1", 0, "a1", 100, true, some "t2"⟩,
      List.mem_cons_self _ _, rfl, rfl, rfl⟩

/-- Block at height 3 whose first transaction references a non-existent
output while its second transaction (with resolving references and
matching sums) references the already-spent output `(t1, 0)`. -/
def poisonBlk : Block :=
  ⟨"3tpt3", 3, [⟨"tp", [⟨"ghost", 0⟩], [⟨"d1", 0⟩]⟩, ⟨"t3", [⟨"t1", 0⟩], [⟨"c1", 100⟩]⟩]⟩

theorem C10_validation_never_consults_spent_counterexample :
    validateTransaction wS2 ⟨"t3", [⟨"t1", 0⟩], [⟨"c1", 100⟩]⟩ = .ok () ∧
    (⟨"t1", 0, "a1", 100, true, some "t2"⟩ : OutputRow) ∈ wS2.outputs ∧
    ingestBlock idDigest wS2 poisonBlk = .error (.outputNotFound "ghost" 0) ∧
    (∀ t i, ingestBlock idDigest wS2 poisonBlk ≠ .error (.doubleSpend t i)) := by
  refine ⟨rfl, List.mem_cons_self _ _, rfl, ?_⟩
  intro t i h
  rw [show ingestBlock idDigest wS2 poisonBlk = .error (.outputNotFound "ghost" 0) from rfl] at h
  simp at h
end Indexer
